import Mathlib

/-!
# Verification of the Generative-Model Gateway (INF4G)

A shallow embedding, in Lean 4, of the core subsystem of the INF4G note
assistant: the configuration-string cleaner, the backend retry loop of
`callGenerativeAi`, the structured-output parser `parseJsonResponse`, the
audit-response validator `parseAuditResponse`, the multi-provider fan-out
`handleAuditAll`, the roaming phase-2 workflow of `handleStartRoaming`, and
the two streaming consumers (`callOpenAiCompatibleApiStream` and the backend
branch of `callGenerativeAiStream`).

The embedding follows the TypeScript source.  JavaScript strings are modelled
as Lean `String`/`List Char`; `undefined` results are modelled with `Option`;
JSON values are modelled by the mutual inductive `Json` below, with the single
acknowledged restriction that JSON numbers are modelled as integers (`Int`):
JavaScript numbers are IEEE-754 doubles, whose fractional/overflow behaviour
is not shallowly embeddable, and none of the verified properties depends on
non-integral numerals.  `JSON.parse` failure (an exception) is `none`;
`JSON.parse` success is `some v`.
-/

/-! ## JavaScript character and string primitives -/

/-- The character class of the JavaScript `\s` regex escape and of
`String.prototype.trim` (WhiteSpace ∪ LineTerminator). -/
def isJsWs (c : Char) : Bool :=
  c = ' ' ∨ c = '\t' ∨ c = '\n' ∨ c = '\r' ∨
  c.toNat = 0x0b ∨ c.toNat = 0x0c ∨ c.toNat = 0xa0 ∨ c.toNat = 0x1680 ∨
  (0x2000 ≤ c.toNat ∧ c.toNat ≤ 0x200a) ∨
  c.toNat = 0x2028 ∨ c.toNat = 0x2029 ∨ c.toNat = 0x202f ∨
  c.toNat = 0x205f ∨ c.toNat = 0x3000 ∨ c.toNat = 0xfeff

/-- `String.prototype.trim` on a character list. -/
def jsTrimL (cs : List Char) : List Char :=
  ((cs.dropWhile isJsWs).reverse.dropWhile isJsWs).reverse

/-- `String.prototype.trim`. -/
def jsTrim (s : String) : String :=
  String.mk (jsTrimL s.data)

/-- `String.prototype.toLowerCase`, restricted to the simple one-to-one case
mappings (sufficient for the ASCII sentinel phrases the source searches for). -/
def jsToLowerL (cs : List Char) : List Char :=
  cs.map Char.toLower

/-- Whether the first list occurs at the very start of the second. -/
def startsWithL : List Char → List Char → Bool
  | [], _ => true
  | _ :: _, [] => false
  | a :: s, b :: t => a = b && startsWithL s t

/-- `String.prototype.includes`: `sub` occurs contiguously in `cs`. -/
def jsIncludesL : List Char → List Char → Bool
  | cs, sub =>
    startsWithL sub cs ||
      (match cs with
       | [] => false
       | _ :: t => jsIncludesL t sub)

/-! ## `cleanEnv` (source lines 8-12)

```ts
const cleanEnv = (value: string | undefined): string | undefined => {
    if (!value) return undefined;
    return value.trim().replace(/^["'“]+|["'”]+$/g, '');
};
``` -/

/-- The character class `["'“]` of the leading-quote alternative. -/
def isLeadQuote (c : Char) : Bool :=
  c = '"' ∨ c = '\'' ∨ c = '“'

/-- The character class `["'”]` of the trailing-quote alternative. -/
def isTrailQuote (c : Char) : Bool :=
  c = '"' ∨ c = '\'' ∨ c = '”'

/-- The global replace `/^["'“]+|["'”]+$/g → ''`: the maximal leading run of
straight/left-smart quotes is removed, then the maximal trailing run of
straight/right-smart quotes is removed from what remains. -/
def stripQuotesL (cs : List Char) : List Char :=
  ((cs.dropWhile isLeadQuote).reverse.dropWhile isTrailQuote).reverse

/-- `cleanEnv` from the source.  `none` models `undefined`; note that the
guard `if (!value) return undefined` also maps the empty string to
`undefined`, while a nonempty string is trimmed and quote-stripped. -/
def cleanEnv (value : Option String) : Option String :=
  match value with
  | none => none
  | some s => if s = "" then none else some (String.mk (stripQuotesL (jsTrimL s.data)))

/-! ### Facts about `cleanEnv` used by claim C9 -/

theorem dropWhile_head_false {p : Char → Bool} {cs : List Char} :
    ∀ c ∈ (cs.dropWhile p).head?, p c = false := by
  induction cs with
  | nil => intro c hc; simp at hc
  | cons a t ih =>
    intro c hc
    by_cases h : p a
    · rw [List.dropWhile_cons_of_pos h] at hc
      exact ih c hc
    · rw [List.dropWhile_cons_of_neg h] at hc
      simp at hc
      simpa [hc] using h

theorem dropWhile_eq_self_of_head {p : Char → Bool} {cs : List Char}
    (h : ∀ c ∈ cs.head?, p c = false) : cs.dropWhile p = cs := by
  cases cs with
  | nil => rfl
  | cons a t =>
    have : p a = false := h a (by simp)
    simp [List.dropWhile_cons, this]

/-- The head of the quote-stripped result (when nonempty) is not a leading
quote character. -/
theorem stripQuotesL_head {cs : List Char} :
    ∀ c ∈ (stripQuotesL cs).head?, isLeadQuote c = false := by
  intro c hc
  unfold stripQuotesL at hc
  set t := cs.dropWhile isLeadQuote with ht
  have hhead : ∀ c ∈ t.head?, isLeadQuote c = false := by
    intro d hd; exact dropWhile_head_false d hd
  -- the trailing strip only removes a suffix, so the head survives or the
  -- list becomes empty
  have hsuffix : t.reverse.dropWhile isTrailQuote <:+ t.reverse :=
    List.dropWhile_suffix _
  obtain ⟨pre, hpre⟩ := hsuffix
  have : (t.reverse.dropWhile isTrailQuote).reverse <+: t := by
    have := congrArg List.reverse hpre
    simp at this
    exact ⟨pre.reverse, this⟩
  obtain ⟨suf, hsuf⟩ := this
  have hc' : c ∈ t.head? := by
    rcases h : (t.reverse.dropWhile isTrailQuote).reverse with _ | ⟨a, r⟩
    · rw [h] at hc; simp at hc
    · rw [h] at hc; simp at hc
      rw [← hsuf, h, hc]
      simp
  exact hhead c hc'

/-- The last element of the quote-stripped result (when nonempty) is not a
trailing quote character. -/
theorem stripQuotesL_last {cs : List Char} :
    ∀ c ∈ (stripQuotesL cs).reverse.head?, isTrailQuote c = false := by
  intro c hc
  unfold stripQuotesL at hc
  simp at hc
  exact dropWhile_head_false c hc

theorem stripQuotesL_fixed {cs : List Char}
    (h1 : ∀ c ∈ cs.head?, isLeadQuote c = false)
    (h2 : ∀ c ∈ cs.reverse.head?, isTrailQuote c = false) :
    stripQuotesL cs = cs := by
  unfold stripQuotesL
  rw [dropWhile_eq_self_of_head h1, dropWhile_eq_self_of_head h2, List.reverse_reverse]

theorem jsTrimL_eq_self_of {cs : List Char}
    (h1 : ∀ c ∈ cs.head?, isJsWs c = false)
    (h2 : ∀ c ∈ cs.reverse.head?, isJsWs c = false) :
    jsTrimL cs = cs := by
  unfold jsTrimL
  rw [dropWhile_eq_self_of_head h1, dropWhile_eq_self_of_head h2, List.reverse_reverse]

/-- C9 counterexample support: `cleanEnv` applied to the one-character string
`"` yields the empty string, which a second application maps to `undefined`. -/
theorem cleanEnv_quote_char : cleanEnv (some "\"") = some "" := by decide

/-- C9, counterexample: `cleanEnv` is not idempotent.  On the one-character
input `"` the first application returns the empty string and the second
returns `undefined` (the source's `if (!value) return undefined` guard treats
the empty string as absent), so `cleanEnv (cleanEnv s) ≠ cleanEnv s`. -/
theorem cleanEnv_not_idempotent :
    cleanEnv (cleanEnv (some "\"")) ≠ cleanEnv (some "\"") := by decide

/-- C9, amended: `cleanEnv` is idempotent on every input whose cleaned form is
nonempty and carries no leading or trailing JavaScript whitespace.  (In
general idempotence fails: stripping a quote can expose interior whitespace
that only the second application trims, and a result that is the empty string
is mapped to `undefined` by the second application.) -/
theorem cleanEnv_idempotent_on_trimmed (s t : String)
    (h : cleanEnv (some s) = some t) (hne : t ≠ "")
    (htrim : jsTrimL t.data = t.data) :
    cleanEnv (some t) = some t := by
  have hs : s ≠ "" := by
    intro h0; rw [h0] at h; simp [cleanEnv] at h
  have ht : t.data = stripQuotesL (jsTrimL s.data) := by
    simp [cleanEnv, hs] at h
    rw [← h]
  have h1 : ∀ c ∈ t.data.head?, isLeadQuote c = false := by
    rw [ht]; exact fun c hc => stripQuotesL_head c hc
  have h2 : ∀ c ∈ t.data.reverse.head?, isTrailQuote c = false := by
    rw [ht]; exact fun c hc => stripQuotesL_last c hc
  have : stripQuotesL (jsTrimL t.data) = t.data := by
    rw [htrim, stripQuotesL_fixed h1 h2]
  simp [cleanEnv, hne, this]

/-- Witness for the amended C9 theorem at the concrete input `'abc'`. -/
theorem cleanEnv_idempotent_on_trimmed_witness :
    cleanEnv (some "abc") = some "abc" :=
  cleanEnv_idempotent_on_trimmed "'abc'" "abc" (by decide) (by decide) (by decide)

/-! ## Backend error classification (source lines 19-28)

```ts
const getBackendErrorMessage = (error: any, url: string): string => {
    if (typeof window !== 'undefined' && window.location.protocol === 'https:' && url.startsWith('http:')) {
        return `【安全限制警告】...`;
    }
    if (error instanceof TypeError && error.message.toLowerCase().includes('failed to fetch')) {
        return `网络请求失败。无法连接到后端服务 (${url})。...`;
    }
    return error.message || `后端请求出错 (${url})`;
};
``` -/

/-- A thrown JavaScript `Error` as the classifier observes it: whether it is a
`TypeError`, and its `message`. -/
structure JsError where
  isTypeError : Bool
  message : String
deriving DecidableEq

/-- The mixed-content remediation message (first branch). -/
def mixedContentMsg (url : String) : String :=
  "【安全限制警告】\n\nGitHub Pages (HTTPS) 无法连接到不安全的 HTTP 后端 (" ++ url ++
  ")。\n浏览器出于安全原因拦截了请求 (Mixed Content)。\n\n解决方案：\n1. 请将您的后端服务升级为 HTTPS。\n2. 或者切换到“前端直连”模式使用基础 AI 功能。\n3. 或者在本地环境运行前端。"

/-- The connectivity-failure message (second branch). -/
def netFailMsg (url : String) : String :=
  "网络请求失败。无法连接到后端服务 (" ++ url ++
  ")。\n\n可能原因：\n1. 后端服务未启动。\n2. 跨域 (CORS) 配置未允许当前域名。\n3. 网络连接问题。"

/-- `getBackendErrorMessage`.  `httpsPage` models
`typeof window !== 'undefined' && window.location.protocol === 'https:'`,
an ambient property of the page the code runs in. -/
def getBackendErrorMessage (httpsPage : Bool) (error : JsError) (url : String) : String :=
  if httpsPage && url.startsWith "http:" then mixedContentMsg url
  else if error.isTypeError &&
      jsIncludesL (jsToLowerL error.message.data) "failed to fetch".data then
    netFailMsg url
  else if error.message ≠ "" then error.message
  else "后端请求出错 (" ++ url ++ ")"

/-! ## `callGenerativeAi`, backend branch (source lines 349-379)

```ts
const retries = 2; // 1 initial attempt + 2 retries
for (let i = 0; i <= retries; i++) {
    try {
        const response = await fetch(`${API_BASE_URL}/generate`, {...});
        if (!response.ok) {
            let userFriendlyError = `后端代理服务出错 (状态码: ${response.status})。请检查后端服务日志。`;
            if (response.status >= 500 && response.status < 600) {
                userFriendlyError += ` 这可能是由于后端无法连接到上游AI服务导致的。`;
            }
            throw new Error(userFriendlyError);
        }
        return await response.text();
    } catch (error) {
        if (i === retries) {
            throw new Error(getBackendErrorMessage(error, API_BASE_URL));
        }
        await new Promise(res => setTimeout(res, 1000));
    }
}
throw new Error('All retry attempts failed.');
```

Each iteration's interaction with the network is modelled by an
`AttemptOutcome`; the loop itself is embedded as `backendGo`.  The events the
loop performs (which attempt it issues, and each `setTimeout` suspension) are
recorded in a trace so that the retry policy is fully observable. -/

/-- How one fetch of `${API_BASE_URL}/generate` can go: a 2xx response whose
body reads as `text`; a non-2xx response with its status and error body; or a
transport-level rejection carrying the thrown error. -/
inductive AttemptOutcome where
  | success (text : String)
  | httpError (status : Nat) (errorBody : String)
  | transportError (e : JsError)
deriving DecidableEq

/-- The `Error` thrown inside the `try` block for a failed attempt.  For a
non-2xx response this is the constructed user-friendly message (with the 5xx
suffix); for a transport failure it is the rejection itself.  (For a 2xx
response nothing is thrown; this function is only consulted on failures.) -/
def attemptError : AttemptOutcome → JsError
  | .success _ => ⟨false, ""⟩
  | .httpError status _ =>
    ⟨false, "后端代理服务出错 (状态码: " ++ toString status ++ ")。请检查后端服务日志。" ++
      (if 500 ≤ status ∧ status < 600 then " 这可能是由于后端无法连接到上游AI服务导致的。" else "")⟩
  | .transportError e => e

/-- One recorded step of the retry loop: issuing attempt `i`, or sleeping for
`ms` milliseconds between attempts. -/
inductive RetryEv where
  | attempt (i : Nat)
  | sleep (ms : Nat)
deriving DecidableEq

/-- `retries = 2` from the source: 1 initial attempt + 2 retries. -/
def backendRetries : Nat := 2

/-- The `for (let i = 0; i <= retries; i++)` loop.  `outcome i` is how the
`i`-th fetch goes.  Returns the surfaced result (`Except.error` models the
thrown message) together with the trace of attempts and sleeps. -/
def backendGo (httpsPage : Bool) (url : String) (outcome : Nat → AttemptOutcome) :
    Nat → Nat → Except String String × List RetryEv
  | _, 0 => (.error "All retry attempts failed.", [])
  | i, fuel + 1 =>
    if i ≤ backendRetries then
      match outcome i with
      | .success t => (.ok t, [.attempt i])
      | o =>
        if i = backendRetries then
          (.error (getBackendErrorMessage httpsPage (attemptError o) url), [.attempt i])
        else
          let r := backendGo httpsPage url outcome (i + 1) fuel
          (r.1, .attempt i :: .sleep 1000 :: r.2)
    else (.error "All retry attempts failed.", [])

/-- The backend branch of `callGenerativeAi`. -/
def callGenerativeAiBackend (httpsPage : Bool) (url : String)
    (outcome : Nat → AttemptOutcome) : Except String String × List RetryEv :=
  backendGo httpsPage url outcome 0 (backendRetries + 2)

/-- C1: the backend-mode non-streaming invocation makes at most 3 attempts
(1 initial + 2 retries), sleeps a fixed 1000 ms between consecutive attempts,
retries on any failure (non-2xx status or transport error alike), returns the
body text of the first successful attempt with no error surfaced, and — when
all 3 attempts fail — throws the message classified (by
`getBackendErrorMessage`) from the last attempt's error alone; the earlier
attempts' errors do not appear in the result. -/
theorem callGenerativeAiBackend_retry_policy
    (httpsPage : Bool) (url : String) (o0 o1 o2 : AttemptOutcome)
    (rest : Nat → AttemptOutcome) :
    callGenerativeAiBackend httpsPage url
        (fun i => if i = 0 then o0 else if i = 1 then o1 else if i = 2 then o2 else rest i) =
      match o0 with
      | .success t => (.ok t, [.attempt 0])
      | _ =>
        match o1 with
        | .success t => (.ok t, [.attempt 0, .sleep 1000, .attempt 1])
        | _ =>
          match o2 with
          | .success t =>
            (.ok t, [.attempt 0, .sleep 1000, .attempt 1, .sleep 1000, .attempt 2])
          | _ =>
            (.error (getBackendErrorMessage httpsPage (attemptError o2) url),
             [.attempt 0, .sleep 1000, .attempt 1, .sleep 1000, .attempt 2]) := by
  cases o0 <;> cases o1 <;> cases o2 <;> rfl

/-! ## JSON values

A mutual inductive keeps structural recursion and induction straightforward.
`JsonList`/`JsonFields` are isomorphic to `List Json` / `List (String × Json)`.
JavaScript `null` is `Json.null`; there is no `undefined` member — an absent
property is `Option.none` at the access site. -/

mutual
inductive Json where
  | null : Json
  | bool (b : Bool) : Json
  | num (n : Int) : Json
  | str (s : String) : Json
  | arr (xs : JsonList) : Json
  | obj (fs : JsonFields) : Json
deriving DecidableEq
inductive JsonList where
  | nil : JsonList
  | cons (hd : Json) (tl : JsonList) : JsonList
deriving DecidableEq
inductive JsonFields where
  | nil : JsonFields
  | cons (key : String) (val : Json) (tl : JsonFields) : JsonFields
deriving DecidableEq
end

/-- The elements of a `JsonList`, as a Lean list. -/
def JsonList.toList : JsonList → List Json
  | .nil => []
  | .cons v tl => v :: tl.toList

/-- Build a `JsonList` from a Lean list. -/
def JsonList.ofList : List Json → JsonList
  | [] => .nil
  | v :: tl => .cons v (JsonList.ofList tl)

/-- JavaScript truthiness on a JSON value (`NaN` cannot arise here). -/
def jsTruthy : Json → Bool
  | .null => false
  | .bool b => b
  | .num n => n ≠ 0
  | .str s => s ≠ ""
  | .arr _ => true
  | .obj _ => true

/-- JavaScript falsiness: `!v`. -/
def jsFalsy (v : Json) : Bool := !jsTruthy v

/-- Property lookup inside an object's field list (keys are unique in every
object produced by our `JSON.parse` model, which resolves duplicates the way
JavaScript does). -/
def JsonFields.get? : JsonFields → String → Option Json
  | .nil, _ => none
  | .cons k v tl, key => if k = key then some v else tl.get? key

/-- Whether a key is present (the JavaScript `in` operator). -/
def JsonFields.hasKey (fs : JsonFields) (key : String) : Bool :=
  (fs.get? key).isSome

/-- JavaScript property access `v[key]` for a string key, returning
`undefined` (`none`) when the property is absent or the value is a primitive.
(Access on `null` throws; callers model that case separately.) -/
def jsGetOpt : Json → String → Option Json
  | .obj fs, key => fs.get? key
  | _, _ => none

/-- Index access `v[i]` on an array value; `undefined` otherwise. -/
def jsIdxOpt : Json → Nat → Option Json
  | .arr xs, i => xs.toList.get? i
  | _, _ => none

/-- Optional chaining `x?.k` on a possibly-absent value: `null`/`undefined`
short-circuit to `undefined`. -/
def jsChainGet (x : Option Json) (key : String) : Option Json :=
  match x with
  | none => none
  | some .null => none
  | some v => jsGetOpt v key

/-- Optional chaining `x?.[i]`. -/
def jsChainIdx (x : Option Json) (i : Nat) : Option Json :=
  match x with
  | none => none
  | some .null => none
  | some v => jsIdxOpt v i

/-- Truthiness of a possibly-`undefined` value. -/
def jsTruthyOpt : Option Json → Bool
  | none => false
  | some v => jsTruthy v

/-- `a || b` where `a` may be `undefined`. -/
def jsOrElse (a : Option Json) (b : Json) : Json :=
  match a with
  | some v => if jsTruthy v then v else b
  | none => b

/-- `typeof x === 'string' ? x : d` for a possibly-`undefined` `x`. -/
def coalesceStr (x : Option Json) (d : String) : String :=
  match x with
  | some (.str s) => s
  | _ => d

/-- `x && typeof x === 'string'`: `x` is a nonempty (truthy) string. -/
def truthyString : Option Json → Bool
  | some (.str s) => s ≠ ""
  | _ => false

/-- `Array.isArray`. -/
def jsIsArray : Json → Bool
  | .arr _ => true
  | _ => false

/-! ## `JSON.stringify` -/

/-- Decimal digit character. -/
def digitChar (d : Nat) : Char := Char.ofNat (48 + d)

/-- Lowercase hexadecimal digit character (as emitted by `JSON.stringify`'s
`\u00xx` escapes). -/
def hexDigChar (k : Nat) : Char :=
  if k < 10 then Char.ofNat (48 + k) else Char.ofNat (87 + k)

/-- The decimal digits of a natural number, most significant first. -/
def natChars (n : Nat) : List Char :=
  if n = 0 then ['0'] else (Nat.digits 10 n).reverse.map digitChar

/-- The decimal rendering of an integer. -/
def intChars (n : Int) : List Char :=
  if n < 0 then '-' :: natChars n.natAbs else natChars n.natAbs

/-- How `JSON.stringify` renders one character inside a string literal:
`"` and `\` are escaped, the five named control escapes are used, any other
control character becomes `\u00xx` (lowercase hex), and everything else is
emitted verbatim. -/
def escChar (c : Char) : List Char :=
  if c = '"' then ['\\', '"']
  else if c = '\\' then ['\\', '\\']
  else if c.toNat = 0x08 then ['\\', 'b']
  else if c = '\t' then ['\\', 't']
  else if c = '\n' then ['\\', 'n']
  else if c.toNat = 0x0c then ['\\', 'f']
  else if c = '\r' then ['\\', 'r']
  else if c.toNat < 0x20 then
    ['\\', 'u', '0', '0', hexDigChar (c.toNat / 16), hexDigChar (c.toNat % 16)]
  else [c]

/-- The body (between the quotes) of a stringified string literal. -/
def printStrBody : List Char → List Char
  | [] => []
  | c :: t => escChar c ++ printStrBody t

mutual
/-- `JSON.stringify`, rendered to a character list. -/
def printVal : Json → List Char
  | .num n => intChars n
  | .str s => '"' :: (printStrBody s.data ++ ['"'])
  | .null => ['n', 'u', 'l', 'l']
  | .bool b => if b then ['t', 'r', 'u', 'e'] else ['f', 'a', 'l', 's', 'e']
  | .arr .nil => ['[', ']']
  | .arr (.cons v tl) => '[' :: (printElems (JsonList.cons v tl) ++ [']'])
  | .obj .nil => ['{', '}']
  | .obj (.cons k v tl) => '{' :: (printFields (JsonFields.cons k v tl) ++ ['}'])
def printElems : JsonList → List Char
  | .nil => []
  | .cons v .nil => printVal v
  | .cons v (.cons w tl) => printVal v ++ ',' :: printElems (JsonList.cons w tl)
def printFields : JsonFields → List Char
  | .nil => []
  | .cons k v .nil => '"' :: (printStrBody k.data ++ '"' :: ':' :: printVal v)
  | .cons k v (.cons k2 v2 tl) =>
    ('"' :: (printStrBody k.data ++ '"' :: ':' :: printVal v)) ++
      ',' :: printFields (JsonFields.cons k2 v2 tl)
end

/-- `JSON.stringify`. -/
def Json.stringify (v : Json) : String := String.mk (printVal v)

/-! ## `JSON.parse`

A recursive-descent parser over `List Char` with an explicit recursion budget
(the budget is generous — two units per input character — so it never cuts a
parse short; it only makes the recursion structural).  `none` models a thrown
`SyntaxError`.  JSON whitespace is the four-character class of RFC 8259 /
ECMA-262 (`JSON.parse` does *not* accept the wider `\s` class). -/

/-- JSON whitespace: space, tab, line feed, carriage return. -/
def isJsonWs (c : Char) : Bool :=
  c = ' ' ∨ c = '\t' ∨ c = '\n' ∨ c = '\r'

/-- Skip JSON whitespace. -/
def skipJsonWs (cs : List Char) : List Char := cs.dropWhile isJsonWs

/-- ASCII decimal digit test. -/
def isDigitCh (c : Char) : Bool := '0' ≤ c ∧ c ≤ '9'

/-- Value of a hexadecimal digit (either case). -/
def hexVal? (c : Char) : Option Nat :=
  if '0' ≤ c ∧ c ≤ '9' then some (c.toNat - 48)
  else if 'a' ≤ c ∧ c ≤ 'f' then some (c.toNat - 87)
  else if 'A' ≤ c ∧ c ≤ 'F' then some (c.toNat - 55)
  else none

/-- Value of a four-hex-digit escape. -/
def hex4? (a b c d : Char) : Option Nat :=
  match hexVal? a, hexVal? b, hexVal? c, hexVal? d with
  | some va, some vb, some vc, some vd => some (((va * 16 + vb) * 16 + vc) * 16 + vd)
  | _, _, _, _ => none

/-- The named single-character escapes accepted inside JSON strings. -/
def escMap? (e : Char) : Option Char :=
  if e = '"' then some '"'
  else if e = '\\' then some '\\'
  else if e = '/' then some '/'
  else if e = 'b' then some (Char.ofNat 0x08)
  else if e = 'f' then some (Char.ofNat 0x0c)
  else if e = 'n' then some '\n'
  else if e = 'r' then some '\r'
  else if e = 't' then some '\t'
  else none

/-- Parse the body of a string literal (after the opening quote) into UTF-16
code-unit values (a literal character beyond the BMP keeps its scalar value —
it is one `Char` here where a JavaScript engine stores a pre-paired surrogate
pair), returning the units and the remainder after the closing quote. -/
def parseUnitsGo : Nat → List Char → Option (List Nat × List Char)
  | 0, _ => none
  | fuel + 1, cs =>
    match cs with
    | [] => none
    | c :: rest =>
      if c = '"' then some ([], rest)
      else if c = '\\' then
        match rest with
        | [] => none
        | e :: rest2 =>
          if e = 'u' then
            match rest2 with
            | a :: b :: c3 :: d :: rest3 =>
              match hex4? a b c3 d with
              | none => none
              | some n => (parseUnitsGo fuel rest3).map (fun p => (n :: p.1, p.2))
            | _ => none
          else
            match escMap? e with
            | some ec => (parseUnitsGo fuel rest2).map (fun p => (ec.toNat :: p.1, p.2))
            | none => none
      else if c.toNat < 0x20 then none
      else (parseUnitsGo fuel rest).map (fun p => (c.toNat :: p.1, p.2))

/-- The body of a string literal as UTF-16 units (wrapper supplying the
budget: every recursive step consumes at least one input character). -/
def parseUnits (cs : List Char) : Option (List Nat × List Char) :=
  parseUnitsGo (cs.length + 1) cs

/-- Combine UTF-16 units into characters: a high surrogate followed by a low
surrogate pairs into one supplementary character; a lone surrogate half (which
a JavaScript engine would keep as an unpaired UTF-16 unit, a value a Unicode
scalar cannot carry) becomes U+FFFD.  The recursion budget is the list length,
which the wrapper below supplies. -/
def unitsToCharsGo : Nat → List Nat → List Char
  | 0, _ => []
  | _, [] => []
  | fuel + 1, u :: rest =>
    if 0xd800 ≤ u ∧ u ≤ 0xdbff then
      match rest with
      | u2 :: rest2 =>
        if 0xdc00 ≤ u2 ∧ u2 ≤ 0xdfff then
          Char.ofNat (0x10000 + (u - 0xd800) * 0x400 + (u2 - 0xdc00)) ::
            unitsToCharsGo fuel rest2
        else Char.ofNat 0xfffd :: unitsToCharsGo fuel (u2 :: rest2)
      | [] => [Char.ofNat 0xfffd]
    else if 0xdc00 ≤ u ∧ u ≤ 0xdfff then Char.ofNat 0xfffd :: unitsToCharsGo fuel rest
    else Char.ofNat u :: unitsToCharsGo fuel rest

/-- Combine UTF-16 units into characters. -/
def unitsToChars (l : List Nat) : List Char := unitsToCharsGo l.length l

/-- Parse the body of a string literal (after the opening quote), returning
the decoded characters and the remainder after the closing quote. -/
def parseStrL (cs : List Char) : Option (List Char × List Char) :=
  (parseUnits cs).map (fun p => (unitsToChars p.1, p.2))

/-- Big-endian digit accumulation. -/
def digitsToNat (ds : List Char) : Nat :=
  ds.foldl (fun a c => 10 * a + (c.toNat - 48)) 0

/-- Parse an unsigned JSON integer: a digit run with no redundant leading
zero.  A following `.`/`e`/`E` would start a fractional or exponent part;
such numerals are IEEE-double territory and are outside this model, so the
parser rejects them (see the header note). -/
def parseNatNum (cs : List Char) : Option (Nat × List Char) :=
  match cs.takeWhile isDigitCh with
  | [] => none
  | d0 :: dtl =>
    if d0 = '0' ∧ dtl ≠ [] then none
    else
      match cs.dropWhile isDigitCh with
      | c :: _ =>
        if c = '.' ∨ c = 'e' ∨ c = 'E' then none
        else some (digitsToNat (cs.takeWhile isDigitCh), cs.dropWhile isDigitCh)
      | [] => some (digitsToNat (cs.takeWhile isDigitCh), cs.dropWhile isDigitCh)

/-- Parse a (possibly negative) JSON integer numeral. -/
def parseNum : List Char → Option (Json × List Char)
  | [] => none
  | c :: rest =>
    if c = '-' then (parseNatNum rest).map (fun p => (Json.num (-(p.1 : Int)), p.2))
    else (parseNatNum (c :: rest)).map (fun p => (Json.num (p.1 : Int), p.2))

/-- JavaScript object-literal field accumulation: a later duplicate key keeps
the first occurrence's position but the last occurrence's value. -/
def JsonFields.erase : JsonFields → String → JsonFields
  | .nil, _ => .nil
  | .cons k v tl, key => if k = key then tl.erase key else .cons k v (tl.erase key)

/-- Prepend a field the way JavaScript resolves duplicate keys. -/
def JsonFields.prepend (k : String) (v : Json) (fs : JsonFields) : JsonFields :=
  match fs.get? k with
  | some v' => .cons k v' (fs.erase k)
  | none => .cons k v fs

mutual
/-- Parse one JSON value (leading whitespace allowed), returning it and the
unconsumed remainder. -/
def parseVal : Nat → List Char → Option (Json × List Char)
  | 0, _ => none
  | fuel + 1, cs0 =>
    match skipJsonWs cs0 with
    | [] => none
    | c :: rest =>
      if c = '"' then (parseStrL rest).map (fun p => (Json.str (String.mk p.1), p.2))
      else if c = '[' then
        if (skipJsonWs rest).head? = some ']' then
          some (Json.arr .nil, (skipJsonWs rest).tail)
        else (parseElems fuel rest).map (fun p => (Json.arr p.1, p.2))
      else if c = '{' then
        if (skipJsonWs rest).head? = some '}' then
          some (Json.obj .nil, (skipJsonWs rest).tail)
        else (parseFields fuel rest).map (fun p => (Json.obj p.1, p.2))
      else if c = 'n' then
        match rest with
        | 'u' :: 'l' :: 'l' :: r => some (Json.null, r)
        | _ => none
      else if c = 't' then
        match rest with
        | 'r' :: 'u' :: 'e' :: r => some (Json.bool true, r)
        | _ => none
      else if c = 'f' then
        match rest with
        | 'a' :: 'l' :: 's' :: 'e' :: r => some (Json.bool false, r)
        | _ => none
      else if c = '-' ∨ isDigitCh c then parseNum (c :: rest)
      else none

/-- Parse the elements of a non-empty array, consuming the closing `]`. -/
def parseElems : Nat → List Char → Option (JsonList × List Char)
  | 0, _ => none
  | fuel + 1, cs =>
    match parseVal fuel cs with
    | none => none
    | some (v, rest) =>
      match skipJsonWs rest with
      | [] => none
      | d :: rest2 =>
        if d = ',' then (parseElems fuel rest2).map (fun p => (JsonList.cons v p.1, p.2))
        else if d = ']' then some (JsonList.cons v .nil, rest2)
        else none

/-- Parse the fields of a non-empty object, consuming the closing `}`. -/
def parseFields : Nat → List Char → Option (JsonFields × List Char)
  | 0, _ => none
  | fuel + 1, cs =>
    match skipJsonWs cs with
    | [] => none
    | c :: rest =>
      if c = '"' then
        match parseStrL rest with
        | none => none
        | some (k, rest2) =>
          match skipJsonWs rest2 with
          | [] => none
          | e :: rest3 =>
            if e = ':' then
              match parseVal fuel rest3 with
              | none => none
              | some (v, rest4) =>
                match skipJsonWs rest4 with
                | [] => none
                | g :: rest5 =>
                  if g = ',' then
                    (parseFields fuel rest5).map (fun p =>
                      (JsonFields.prepend (String.mk k) v p.1, p.2))
                  else if g = '}' then some (JsonFields.cons (String.mk k) v .nil, rest5)
                  else none
            else none
      else none
end

/-- `JSON.parse` on a character list: parse one value and require only
whitespace after it. -/
def jsonParseL (cs : List Char) : Option Json :=
  match parseVal (2 * cs.length + 2) cs with
  | some (v, rest) => if skipJsonWs rest = [] then some v else none
  | none => none

/-- `JSON.parse`. -/
def jsonParse (s : String) : Option Json := jsonParseL s.data

/-! ## `parseJsonResponse` (source lines 1091-1152)

The three regex operations the source applies are modelled first.

JavaScript `null` and a JSON `null` result are the *same* value in the
source: `tryParse` returns `null` both for a parse failure and for an input
whose JSON value is `null`, and every stage guard (`!parsedData`,
`parsedData === null`) observes only that value.  The model therefore lets
`tryParseJS` return `Json` with `Json.null` playing both roles, exactly as in
the running program. -/

/-- The global replace `str.replace(/,\s*([}\]])/g, '$1')`: every comma that
is followed (across optional whitespace) by a closing brace or bracket is
removed together with that whitespace.  The scan advances past each match,
and by one character otherwise, exactly like a global regex.  The budget is
the list length; each recursive call consumes at least one character. -/
def stripTCGo : Nat → List Char → List Char
  | 0, cs => cs
  | _, [] => []
  | fuel + 1, c :: cs =>
    if c = ',' then
      match cs.dropWhile isJsWs with
      | d :: rest2 =>
        if d = '}' ∨ d = ']' then d :: stripTCGo fuel rest2
        else c :: stripTCGo fuel cs
      | [] => c :: stripTCGo fuel cs
    else c :: stripTCGo fuel cs

/-- The trailing-comma strip of `tryParse`'s first attempt. -/
def stripTC (cs : List Char) : List Char := stripTCGo cs.length cs

/-- Position just after the first occurrence of three consecutive backticks. -/
def findAfterTicks : List Char → Option (List Char)
  | '`' :: '`' :: '`' :: rest => some rest
  | _ :: cs => findAfterTicks cs
  | [] => none

/-- Content up to (and remainder after) the next occurrence of three
consecutive backticks. -/
def findUpToTicks : List Char → Option (List Char × List Char)
  | '`' :: '`' :: '`' :: rest => some ([], rest)
  | c :: cs => (findUpToTicks cs).map (fun p => (c :: p.1, p.2))
  | [] => none

/-- The first match's capture group of
`/```(?:json)?\s*([\s\S]*?)\s*```/`: the region between the first fence
(optionally tagged `json`) and the earliest closing fence, with the `\s*`
borders stripped (the group is exactly the whitespace-trimmed interior). -/
def matchFenceGroup (cs : List Char) : Option (List Char) :=
  (findAfterTicks cs).bind (fun afterOpen =>
    let body := if startsWithL "json".data afterOpen then afterOpen.drop 4 else afterOpen
    (findUpToTicks body).map (fun p => jsTrimL p.1))

/-- `String.prototype.indexOf` for one character (`none` models `-1`). -/
def firstIdx (c : Char) (cs : List Char) : Option Nat :=
  List.findIdx? (fun x => x = c) cs

/-- `String.prototype.lastIndexOf` for one character. -/
def lastIdx (c : Char) (cs : List Char) : Option Nat :=
  (List.findIdx? (fun x => x = c) cs.reverse).map (fun j => cs.length - 1 - j)

/-- The brace fallback span: `firstBrace !== -1 && lastBrace > firstBrace`. -/
def braceSpan (js : List Char) : Option (Nat × Nat) :=
  match firstIdx '{' js, lastIdx '}' js with
  | some i, some j => if i < j then some (i, j) else none
  | _, _ => none

/-- Stage-3 span selection: prefer first `[` … last `]` when that span is
valid, otherwise first `{` … last `}`. -/
def spanSel (js : List Char) : Option (Nat × Nat) :=
  match firstIdx '[' js, lastIdx ']' js with
  | some i, some j => if i < j then some (i, j) else braceSpan js
  | _, _ => braceSpan js

/-- `tryParse` from the source: the trailing-comma-stripped text is parsed
*first*, and the text itself only if that throws; a failure of both is the
JavaScript `null`. -/
def tryParseJS (cs : List Char) : Json :=
  match jsonParseL (stripTC cs) with
  | some v => v
  | none =>
    match jsonParseL cs with
    | some v => v
    | none => Json.null

/-- Stages 1-3 of `parseJsonResponse`: direct `tryParse` of the trimmed text;
if the result is falsy, `tryParse` of a fenced block's interior (when a fence
with nonempty interior exists); if still falsy, `tryParse` of the outermost
bracket/brace span (when one exists).  Returns the final `parsedData`. -/
def parseJsonStages (s : String) : Json :=
  let js := jsTrimL s.data
  let p1 := tryParseJS js
  let p2 :=
    if jsFalsy p1 then
      match matchFenceGroup js with
      | some g => if g ≠ [] then tryParseJS (jsTrimL g) else p1
      | none => p1
    else p1
  let p3 :=
    if jsFalsy p2 then
      match spanSel js with
      | some (i, j) => tryParseJS ((js.drop i).take (j + 1 - i))
      | none => p2
    else p2
  p3

/-- The sentinel-phrase test of stage 4 (on the lowercased *original* text). -/
def sentinelHit (s : String) : Bool :=
  let low := jsToLowerL s.data
  jsIncludesL low "no issues found".data || jsIncludesL low "没有发现".data ||
    jsIncludesL low "未发现".data

/-- The result record `{ data, error?, rawResponse? }`.  `data = Json.null`
models the JavaScript `data: null` of the failure branch. -/
structure ParseOut where
  data : Json
  error : Option String
  rawResponse : Option String
deriving DecidableEq

/-- `parseJsonResponse`.  After the structural stages, a `null` result with a
sentinel phrase in the raw text yields a successful empty list — the guard
`Array.isArray([] as T)` from the source is the test on a fresh empty array
that appears here literally — and otherwise the failure record carrying the
untouched original text. -/
def parseJsonResponse (s : String) : ParseOut :=
  let p := parseJsonStages s
  if p = Json.null then
    if jsIsArray (Json.arr .nil) && sentinelHit s then ⟨Json.arr .nil, none, none⟩
    else ⟨Json.null, some "未能将模型响应解析为有效的JSON。", some s⟩
  else ⟨p, none, none⟩

/-! ## `parseAuditResponse` (source lines 1155-1213) -/

/-- A reconstructed audit issue.  `problematicText` is kept as a JSON value:
the salvage branch's `issue.problematicText || '(未指定文本)'` passes any
truthy value through unchanged, so at runtime the field is not necessarily a
string. -/
structure AuditIssueV where
  problematicText : Json
  suggestion : String
  checklistItem : String
  explanation : String
deriving DecidableEq

/-- The field defaulting shared by both branches of the reconstruction:
`suggestion`/`checklistItem` by `typeof`-string tests, `explanation` by a
`typeof`-string test falling back to a string-typed `reason`. -/
def issueDefaults (j : Json) (pt : Json) : AuditIssueV :=
  ⟨pt, coalesceStr (jsGetOpt j "suggestion") "",
    coalesceStr (jsGetOpt j "checklistItem") "通用规则",
    (match jsGetOpt j "explanation" with
     | some (.str e) => e
     | _ =>
       match jsGetOpt j "reason" with
       | some (.str r) => r
       | _ => "无详细说明")⟩

/-- The per-candidate reconstruction (the `.map` body): non-objects are
dropped; a candidate whose `problematicText` is a truthy string is kept
verbatim with the remaining fields defaulted by `typeof` tests; a candidate
whose `problematicText` is falsy or not a string is salvaged — kept only when
`suggestion` or `explanation` is a truthy string, with `problematicText`
replaced by `issue.problematicText || '(未指定文本)'`; anything else is
dropped (`null` in the source, filtered by the trailing `.filter`). -/
def salvageIssue (j : Json) : Option AuditIssueV :=
  if jsFalsy j then none
  else
    match j with
    | .arr _ | .obj _ =>
      let pt := jsGetOpt j "problematicText"
      if truthyString pt then
        some (issueDefaults j (pt.getD Json.null))
      else if truthyString (jsGetOpt j "suggestion") ||
          truthyString (jsGetOpt j "explanation") then
        some (issueDefaults j (jsOrElse pt (Json.str "(未指定文本)")))
      else none
    | _ => none

/-- `issuesArray.map(...).filter(...)` from the source. -/
def validIssues (l : List Json) : List AuditIssueV :=
  l.filterMap salvageIssue

/-- The audit result record `{ issues, error?, rawResponse? }`. -/
structure AuditResultV where
  issues : List AuditIssueV
  error : Option String
  rawResponse : Option String
deriving DecidableEq

/-- `parseAuditResponse`: parse, hand parse failures up unchanged, classify
the parsed value (array / `{issues: [...]}` / single issue-shaped object /
unexpected format), then reconstruct each candidate defensively. -/
def parseAuditResponse (responseText : String) : AuditResultV :=
  let r := parseJsonResponse responseText
  if jsFalsy r.data then ⟨[], r.error, r.rawResponse⟩
  else
    match r.data with
    | .arr xs => ⟨validIssues xs.toList, none, none⟩
    | .obj fs =>
      match fs.get? "issues" with
      | some (.arr xs) => ⟨validIssues xs.toList, none, none⟩
      | _ =>
        if fs.hasKey "problematicText" && fs.hasKey "suggestion" then
          ⟨validIssues [Json.obj fs], none, none⟩
        else
          ⟨[], some "模型返回了意外的 JSON 格式 (既不是数组，也不是包含 'issues' 的对象，也不是单个问题对象)。",
            some responseText⟩
    | _ =>
      ⟨[], some "模型返回了意外的 JSON 格式 (既不是数组，也不是包含 'issues' 的对象，也不是单个问题对象)。",
        some responseText⟩

/-! ### Claims C4 and C10 -/

/-- C4, counterexample: stage 1 does *not* attempt the direct parse first.
The input `",]"` is already valid JSON (the direct parse is the string
`,]`), but `tryParse` parses the trailing-comma-stripped variant `"]"`
first, so `parseJsonResponse` returns the string `]` — not the direct
parse's value. -/
theorem parseJsonResponse_strip_first_cex :
    parseJsonResponse "\",]\"" = ⟨Json.str "]", none, none⟩ ∧
    jsonParseL (jsTrimL "\",]\"".data) = some (Json.str ",]") ∧
    Json.str "]" ≠ Json.str ",]" := by
  refine ⟨by decide, by decide, by decide⟩

/-- C4, amended: in stage 1 the trailing-comma-stripped variant of the
trimmed text is parsed *first*, and the direct parse is attempted only if
that fails; consequently, for an input that is already valid JSON, the parser
returns the direct parse's value unmodified provided the stripping leaves the
text unchanged and the value is JavaScript-truthy (a JSON `null` direct parse
is instead reported as a parse failure, and other falsy values re-enter the
later stages before being returned). -/
theorem parseJsonResponse_stage1_order :
    (∀ cs w, jsonParseL (stripTC cs) = some w → tryParseJS cs = w) ∧
    (∀ (s : String) (v : Json), jsonParseL (jsTrimL s.data) = some v →
      stripTC (jsTrimL s.data) = jsTrimL s.data → jsTruthy v = true →
      parseJsonResponse s = ⟨v, none, none⟩) := by
  constructor
  · intro cs w h
    unfold tryParseJS
    rw [h]
  · intro s v hparse hstrip htruthy
    have hp1 : tryParseJS (jsTrimL s.data) = v := by
      unfold tryParseJS
      rw [hstrip, hparse]
    have hfalsy : jsFalsy v = false := by
      unfold jsFalsy
      rw [htruthy]
      rfl
    have hstages : parseJsonStages s = v := by
      unfold parseJsonStages
      simp only [hp1, hfalsy]
      simp [hfalsy]
    have hnn : v ≠ Json.null := by
      intro h0
      rw [h0] at htruthy
      exact absurd htruthy (by decide)
    unfold parseJsonResponse
    rw [hstages, if_neg hnn]

/-- Witness for the amended C4 theorem: the stripped variant of `[1,]`
parses, so `tryParse` returns it; and the valid, strip-invariant, truthy
input `[1]` flows through unchanged. -/
theorem parseJsonResponse_stage1_order_witness :
    tryParseJS "[1,]".data = Json.arr (.cons (Json.num 1) .nil) ∧
    parseJsonResponse "[1]" = ⟨Json.arr (.cons (Json.num 1) .nil), none, none⟩ :=
  ⟨parseJsonResponse_stage1_order.1 "[1,]".data _ (by decide),
   parseJsonResponse_stage1_order.2 "[1]" _ (by decide) (by decide) (by decide)⟩

/-- C10: whenever the structural stages leave `parsedData` at `null`, a
sentinel phrase (`no issues found` / `没有发现` / `未发现`, matched on the
lowercased original text) makes `parseJsonResponse` return the empty list as
a *successful* result, with no error and no raw response — regardless of the
caller's expected shape, because the source's guard `Array.isArray([] as T)`
tests a fresh empty array and is therefore always true (second conjunct). -/
theorem parseJsonResponse_sentinel_empty_list (s : String)
    (hfail : parseJsonStages s = Json.null) (hsent : sentinelHit s = true) :
    parseJsonResponse s = ⟨Json.arr .nil, none, none⟩ ∧
    jsIsArray (Json.arr .nil) = true := by
  constructor
  · unfold parseJsonResponse
    rw [hfail, if_pos rfl, hsent]
    simp [jsIsArray]
  · rfl

/-- Witness for C10 at the concrete sentinel input from the specification's
test battery (a Chinese sentence containing `未发现`, with no parseable
structure). -/
theorem parseJsonResponse_sentinel_empty_list_witness :
    parseJsonResponse "经检查，未发现任何问题。" = ⟨Json.arr .nil, none, none⟩ :=
  (parseJsonResponse_sentinel_empty_list "经检查，未发现任何问题。"
    (by decide) (by decide)).1

/-! ### Claim C8 -/

/-- C8, counterexample: a candidate lacking a *string* `problematicText` is
not always kept with the placeholder marker.  For
`{"problematicText":5,"suggestion":"fix it"}` the candidate lacks a string
`problematicText` and carries a string suggestion, yet the source's salvage
expression `issue.problematicText || '(未指定文本)'` passes the truthy
number `5` through, so the kept issue's `problematicText` is `5`, not the
placeholder. -/
theorem parseAuditResponse_salvage_cex :
    parseAuditResponse "[\x7b\"problematicText\":5,\"suggestion\":\"fix it\"\x7d]" =
      ⟨[⟨Json.num 5, "fix it", "通用规则", "无详细说明"⟩], none, none⟩ ∧
    Json.num 5 ≠ Json.str "(未指定文本)" := by
  refine ⟨by decide, by decide⟩

/-- The truthy-gated value of `a || b`. -/
theorem jsOrElse_eq (a : Option Json) (b : Json) :
    jsOrElse a b = if jsTruthyOpt a then a.getD Json.null else b := by
  cases a with
  | none => rfl
  | some v =>
    by_cases h : jsTruthy v
    · simp [jsOrElse, jsTruthyOpt, h]
    · simp [jsOrElse, jsTruthyOpt, h]

/-- `typeof x === 'object'` for a truthy value: arrays and objects. -/
def jsIsObjectLike : Json → Bool
  | .arr _ => true
  | .obj _ => true
  | _ => false

/-- The amended per-candidate reconstruction, written from the amended claim:
a non-object candidate is dropped; a candidate with a truthy-string
`problematicText` is kept verbatim; a candidate whose `problematicText` is
absent, falsy, or not a string is kept exactly when `suggestion` or
`explanation` is a truthy string — and its `problematicText` becomes the
placeholder marker only when the original value was falsy or absent, a
truthy non-string value being carried through unchanged. -/
def salvageIssueAmended (j : Json) : Option AuditIssueV :=
  if jsIsObjectLike j then
    let pt := jsGetOpt j "problematicText"
    if truthyString pt then some (issueDefaults j (pt.getD Json.null))
    else if truthyString (jsGetOpt j "suggestion") ||
        truthyString (jsGetOpt j "explanation") then
      some (issueDefaults j
        (if jsTruthyOpt pt then pt.getD Json.null else Json.str "(未指定文本)"))
    else none
  else none

/-- C8, amended: the reconstruction is total (it is a Lean function — nothing
raises); each candidate is reconstructed independently, so dropping or
salvaging one entry never removes or alters a sibling entry (first
conjunct); and the per-candidate rule is `salvageIssueAmended`: non-objects
are dropped, a truthy-string `problematicText` is kept verbatim, an absent /
falsy / non-string `problematicText` is salvaged exactly when `suggestion` or
`explanation` is a truthy string, with the placeholder marker substituted
only for a falsy or absent `problematicText` (second conjunct). -/
theorem parseAuditResponse_salvage_amended :
    (∀ (pre post : List Json) (j : Json),
      validIssues (pre ++ j :: post) =
        validIssues pre ++ (salvageIssue j).toList ++ validIssues post) ∧
    (∀ j : Json, salvageIssue j = salvageIssueAmended j) := by
  constructor
  · intro pre post j
    unfold validIssues
    rw [List.filterMap_append, List.filterMap_cons]
    cases h : salvageIssue j <;> simp [h]
  · intro j
    cases j with
    | null => rfl
    | bool b => cases b <;> rfl
    | num n =>
      by_cases h : n = 0 <;> simp [salvageIssue, salvageIssueAmended, jsFalsy, jsTruthy, jsIsObjectLike, h]
    | str s =>
      by_cases h : s = "" <;> simp [salvageIssue, salvageIssueAmended, jsFalsy, jsTruthy, jsIsObjectLike, h]
    | arr xs =>
      simp [salvageIssue, salvageIssueAmended, jsFalsy, jsTruthy, jsIsObjectLike, jsOrElse_eq]
    | obj fs =>
      simp [salvageIssue, salvageIssueAmended, jsFalsy, jsTruthy, jsIsObjectLike, jsOrElse_eq]

/-- Witness for the amended C8 theorem: dropping the malformed middle entry
(an object with neither a usable `problematicText` nor a salvageable field)
leaves the two sibling entries intact. -/
theorem parseAuditResponse_salvage_amended_witness :
    validIssues [Json.obj (.cons "problematicText" (Json.str "a") .nil),
        Json.str "junk",
        Json.obj (.cons "suggestion" (Json.str "fix it") .nil)] =
      [⟨Json.str "a", "", "通用规则", "无详细说明"⟩,
       ⟨Json.str "(未指定文本)", "fix it", "通用规则", "无详细说明"⟩] := by
  have h := parseAuditResponse_salvage_amended.1
    [Json.obj (.cons "problematicText" (Json.str "a") .nil)]
    [Json.obj (.cons "suggestion" (Json.str "fix it") .nil)]
    (Json.str "junk")
  simp only [List.singleton_append, List.cons_append, List.nil_append] at h
  rw [h]
  decide

/-! ## `handleAuditAll` (source lines 1280-1313)

```ts
const allModels: ModelProvider[] = ['gemini', 'openai', 'deepseek', 'ali', 'depOCR', 'doubao'];
const auditPromises = allModels.map(model => callGenerativeAi(...));
const results = await Promise.allSettled(auditPromises);
const newAuditResults: AuditResults = {};
results.forEach((result, index) => {
    const model = allModels[index];
    if (result.status === 'fulfilled') {
        const { issues, error, rawResponse } = parseAuditResponse(result.value);
        newAuditResults[model] = { issues, error, rawResponse };
    } else {
        newAuditResults[model] = { issues: [], error: (result.reason as Error).message };
    }
});
```

`Promise.allSettled` never rejects; each provider's settled outcome is an
independent input to the model, given by a function from providers to
outcomes. -/

/-- The closed provider set. -/
inductive ModelProvider where
  | gemini | openai | deepseek | ali | depOCR | doubao
deriving DecidableEq

/-- `allModels` from the source. -/
def allModels : List ModelProvider :=
  [.gemini, .openai, .deepseek, .ali, .depOCR, .doubao]

/-- One `Promise.allSettled` slot: the invocation's response text, or the
rejection reason's `message`. -/
inductive SettledResult where
  | fulfilled (value : String)
  | rejected (message : String)
deriving DecidableEq

/-- The `forEach` body: fulfilled slots run `parseAuditResponse`; rejected
slots record an empty issue list and the error message. -/
def settleEntry : SettledResult → AuditResultV
  | .fulfilled v => parseAuditResponse v
  | .rejected m => ⟨[], some m, none⟩

/-- `handleAuditAll`'s result map, keyed by provider. -/
def handleAuditAll (settle : ModelProvider → SettledResult) :
    List (ModelProvider × AuditResultV) :=
  allModels.map (fun m => (m, settleEntry (settle m)))

/-- C2: the audit fan-out never fails as a unit and isolates providers.  For
every assignment of settled outcomes: the result map's keys are exactly the
six invoked providers, one entry each; each provider's entry is determined by
its own outcome alone; a provider whose invocation rejected contributes an
entry with an empty issue list and its error message; and changing the
outcome of one provider `k` leaves every other provider's entry untouched. -/
theorem handleAuditAll_isolation (settle settle' : ModelProvider → SettledResult)
    (k : ModelProvider) (hagree : ∀ m, m ≠ k → settle' m = settle m) :
    ((handleAuditAll settle).map Prod.fst = allModels) ∧
    (∀ m ∈ allModels, (handleAuditAll settle).lookup m = some (settleEntry (settle m))) ∧
    (∀ m ∈ allModels, ∀ r, settle m = .rejected r →
      (handleAuditAll settle).lookup m = some ⟨[], some r, none⟩) ∧
    (∀ m ∈ allModels, m ≠ k →
      (handleAuditAll settle').lookup m = (handleAuditAll settle).lookup m) := by
  refine ⟨rfl, ?_, ?_, ?_⟩
  · intro m hm
    cases m <;> rfl
  · intro m hm r hr
    have h2 : (handleAuditAll settle).lookup m = some (settleEntry (settle m)) := by
      cases m <;> rfl
    rw [h2, hr]
    rfl
  · intro m hm hne
    have h := hagree m hne
    have h1 : (handleAuditAll settle').lookup m = some (settleEntry (settle' m)) := by
      cases m <;> rfl
    have h2 : (handleAuditAll settle).lookup m = some (settleEntry (settle m)) := by
      cases m <;> rfl
    rw [h1, h2, h]

/-- Witness for C2: with `openai` rejecting and the others succeeding, the
rejected provider's entry is the empty-issues/error record and a sibling's
entry is unaffected by changing `openai`'s outcome. -/
theorem handleAuditAll_isolation_witness :
    (handleAuditAll (fun m => match m with
        | .openai => .rejected "boom"
        | _ => .fulfilled "[]")).lookup .openai = some ⟨[], some "boom", none⟩ ∧
    (handleAuditAll (fun m => match m with
        | .openai => .rejected "other"
        | _ => .fulfilled "[]")).lookup .gemini =
      (handleAuditAll (fun m => match m with
        | .openai => .rejected "boom"
        | _ => .fulfilled "[]")).lookup .gemini := by
  constructor
  · exact (handleAuditAll_isolation
      (fun m => match m with | .openai => .rejected "boom" | _ => .fulfilled "[]")
      (fun m => match m with | .openai => .rejected "other" | _ => .fulfilled "[]")
      .openai (by intro m hm; cases m <;> simp_all)).2.2.1
      .openai (by decide) "boom" rfl
  · exact (handleAuditAll_isolation
      (fun m => match m with | .openai => .rejected "boom" | _ => .fulfilled "[]")
      (fun m => match m with | .openai => .rejected "other" | _ => .fulfilled "[]")
      .openai (by intro m hm; cases m <;> simp_all)).2.2.2
      .gemini (by decide) (by decide)

/-! ## `handleStartRoaming`, phase 2 (source lines 912-938)

```ts
const roamingPromises = sources.map(async (source: Source) => {
    const genAiResponseText = await callGenerativeAi(provider, executionMode, systemInstruction, userPrompt, true, 'roaming');
    const result = JSON.parse(genAiResponseText.replace(/```json\n?|\n?```/g, ''));
    if (!result.conclusion) {
        throw new Error("AI model did not return a valid conclusion for one of the documents.");
    }
    return { source: source.source_file, relevantText: source.content_chunk, conclusion: result.conclusion };
});
const newRoamingResults = await Promise.all(roamingPromises);
```

Each snippet's `callGenerativeAi` settles independently; the `i`-th call's
outcome is an input `call i`.  `Promise.all` resolves with the results in
input order, and rejects as soon as any input rejects (which rejection wins
is timing-dependent; the model's `promiseAll` is deterministic about the
value but claim C3 only uses success/failure). -/

/-- The global replace `.replace(/```json\n?|\n?```/g, '')`.  The budget is
the list length; every recursive call consumes at least one character. -/
def stripRFGo : Nat → List Char → List Char
  | 0, cs => cs
  | _, [] => []
  | fuel + 1, c :: cs =>
    if startsWithL "```json\n".data (c :: cs) then stripRFGo fuel ((c :: cs).drop 8)
    else if startsWithL "```json".data (c :: cs) then stripRFGo fuel ((c :: cs).drop 7)
    else if startsWithL "\n```".data (c :: cs) then stripRFGo fuel ((c :: cs).drop 4)
    else if startsWithL "```".data (c :: cs) then stripRFGo fuel ((c :: cs).drop 3)
    else c :: stripRFGo fuel cs

/-- Fence removal applied to each synthesis response. -/
def stripRoamFences (s : String) : List Char := stripRFGo s.data.length s.data

/-- A retrieved snippet (`related_documents` entry). -/
structure SourceR where
  source_file : String
  content_chunk : String
  score : Int
deriving DecidableEq

/-- A roaming result item.  `conclusion` is whatever truthy value
`result.conclusion` held (the source does not force it to be a string). -/
structure RoamingItemV where
  source : String
  relevantText : String
  conclusion : Json
deriving DecidableEq

/-- Why one snippet's promise rejects: its model call rejected; `JSON.parse`
threw; property access on a `null` parse threw; or the conclusion was falsy. -/
inductive RoamFail where
  | callError (msg : String)
  | jsonError
  | nullAccess
  | noConclusion
deriving DecidableEq

/-- One snippet's async body. -/
def roamSnippet (callResult : Except String String) (src : SourceR) :
    Except RoamFail RoamingItemV :=
  match callResult with
  | .error m => .error (.callError m)
  | .ok text =>
    match jsonParseL (stripRoamFences text) with
    | none => .error .jsonError
    | some .null => .error .nullAccess
    | some result =>
      match jsGetOpt result "conclusion" with
      | some c => if jsTruthy c then
          .ok ⟨src.source_file, src.content_chunk, c⟩
        else .error .noConclusion
      | none => .error .noConclusion

/-- `Promise.all`: all fulfilled resolves with the values in input order;
otherwise rejected. -/
def promiseAll : List (Except ε α) → Except ε (List α)
  | [] => .ok []
  | .error e :: _ => .error e
  | .ok a :: rest => (promiseAll rest).map (a :: ·)

/-- The snippet promises, in retrieval order. -/
def roamMap (call : Nat → Except String String) : Nat → List SourceR →
    List (Except RoamFail RoamingItemV)
  | _, [] => []
  | i, s :: rest => roamSnippet (call i) s :: roamMap call (i + 1) rest

/-- Phase 2 of `handleStartRoaming`. -/
def handleRoamingPhase2 (sources : List SourceR)
    (call : Nat → Except String String) : Except RoamFail (List RoamingItemV) :=
  promiseAll (roamMap call 0 sources)

theorem promiseAll_isOk_iff (l : List (Except ε α)) :
    (promiseAll l).isOk = true ↔ ∀ x ∈ l, x.isOk = true := by
  induction l with
  | nil =>
    constructor
    · intro _ x hx; exact absurd hx (List.not_mem_nil x)
    · intro _; rfl
  | cons x t ih =>
    cases x with
    | error e =>
      constructor
      · intro h; exact absurd h (by simp [promiseAll, Except.isOk, Except.toBool])
      · intro hall
        exact absurd (hall (.error e) (by simp)) (by simp [Except.isOk, Except.toBool])
    | ok a =>
      have hmap : (promiseAll (Except.ok a :: t)).isOk = (promiseAll t).isOk := by
        cases h : promiseAll t <;>
          simp [promiseAll, h, Except.map, Except.isOk, Except.toBool]
      rw [hmap]
      constructor
      · intro h x hx
        rcases List.mem_cons.mp hx with rfl | hx'
        · rfl
        · exact (ih.mp h) x hx'
      · intro hall
        exact ih.mpr (fun x hx => hall x (List.mem_cons_of_mem _ hx))

theorem promiseAll_ok_get {l : List (Except ε α)} {xs : List α}
    (h : promiseAll l = .ok xs) :
    xs.length = l.length ∧
    ∀ j (hj : j < l.length) (hx : j < xs.length), l.get ⟨j, hj⟩ = .ok (xs.get ⟨j, hx⟩) := by
  induction l generalizing xs with
  | nil =>
    have h' : Except.ok ([] : List α) = Except.ok xs := h
    cases Except.ok.inj h'
    exact ⟨rfl, by intro j hj; exact absurd hj (by simp)⟩
  | cons x t ih =>
    cases x with
    | error e => exact Except.noConfusion h
    | ok a =>
      have hdef : promiseAll (Except.ok a :: t) = (promiseAll t).map (a :: ·) := rfl
      rw [hdef] at h
      cases h2 : promiseAll t with
      | error e => rw [h2] at h; exact Except.noConfusion h
      | ok ys =>
        rw [h2] at h
        have h' : a :: ys = xs := Except.ok.inj h
        subst h'
        obtain ⟨hlen, hget⟩ := ih h2
        refine ⟨by simp [hlen], ?_⟩
        intro j hj hx
        cases j with
        | zero => rfl
        | succ j' => exact hget j' (Nat.lt_of_succ_lt_succ hj) (Nat.lt_of_succ_lt_succ hx)

theorem roamMap_length (call : Nat → Except String String) :
    ∀ (l : List SourceR) (i : Nat), (roamMap call i l).length = l.length := by
  intro l
  induction l with
  | nil => intro i; rfl
  | cons s t ih => intro i; simp [roamMap, ih]

theorem roamMap_get (call : Nat → Except String String) :
    ∀ (l : List SourceR) (i j : Nat) (hj : j < l.length)
      (hj2 : j < (roamMap call i l).length),
      (roamMap call i l).get ⟨j, hj2⟩ = roamSnippet (call (i + j)) (l.get ⟨j, hj⟩) := by
  intro l
  induction l with
  | nil => intro i j hj; simp at hj
  | cons s t ih =>
    intro i j hj hj2
    cases j with
    | zero => rfl
    | succ j' =>
      have h1 : j' < t.length := Nat.lt_of_succ_lt_succ hj
      have h2 : j' < (roamMap call (i + 1) t).length := by
        rw [roamMap_length]; exact h1
      have hstep : (roamMap call i (s :: t)).get ⟨j' + 1, hj2⟩ =
          (roamMap call (i + 1) t).get ⟨j', h2⟩ := rfl
      rw [hstep, ih (i + 1) j' h1 h2]
      have harith : i + 1 + j' = i + (j' + 1) := by omega
      rw [harith]
      rfl

/-- C3: roaming phase 2 is all-or-nothing and order-preserving.  Given the
snippets returned by retrieval, the workflow resolves successfully exactly
when every snippet's synthesis body succeeds — its call fulfilled, the fence-
stripped response parsed as JSON, the parse was not `null`, and the
`conclusion` property was truthy; a single failing snippet fails the whole
operation, with no partial list of items ever produced; and on success the
`i`-th result item comes from the `i`-th retrieved snippet, preserving the
retrieval's ranking order. -/
theorem handleStartRoaming_all_or_nothing (sources : List SourceR)
    (call : Nat → Except String String) :
    ((handleRoamingPhase2 sources call).isOk = true ↔
      ∀ i (h : i < sources.length),
        (roamSnippet (call i) (sources.get ⟨i, h⟩)).isOk = true) ∧
    (∀ items, handleRoamingPhase2 sources call = .ok items →
      items.length = sources.length ∧
      ∀ i (h : i < sources.length) (h2 : i < items.length),
        roamSnippet (call i) (sources.get ⟨i, h⟩) = .ok (items.get ⟨i, h2⟩)) := by
  constructor
  · rw [handleRoamingPhase2, promiseAll_isOk_iff]
    constructor
    · intro hall i hi
      have hm : roamSnippet (call i) (sources.get ⟨i, hi⟩) ∈ roamMap call 0 sources := by
        have hg := roamMap_get call sources 0 i hi (by rw [roamMap_length]; exact hi)
        rw [Nat.zero_add] at hg
        rw [← hg]
        exact List.get_mem _ _ _
      exact hall _ hm
    · intro hidx x hx
      obtain ⟨⟨j, hj⟩, hxg⟩ := List.mem_iff_get.mp hx
      have hj' : j < sources.length := by
        rw [roamMap_length] at hj
        exact hj
      have hg := roamMap_get call sources 0 j hj' hj
      rw [Nat.zero_add] at hg
      rw [← hxg, hg]
      exact hidx j hj'
  · intro items hok
    obtain ⟨hlen, hget⟩ := promiseAll_ok_get hok
    rw [roamMap_length] at hlen
    refine ⟨hlen, ?_⟩
    intro i h h2
    have hg := roamMap_get call sources 0 i h (by rw [roamMap_length]; exact h)
    rw [Nat.zero_add] at hg
    rw [← hg]
    exact hget i (by rw [roamMap_length]; exact h) h2

/-- Witness for C3 at two snippets whose synthesis calls both return a JSON
object with a truthy conclusion. -/
theorem handleStartRoaming_all_or_nothing_witness :
    ([(⟨"f1", "c1", Json.str "ok"⟩ : RoamingItemV), ⟨"f2", "c2", Json.str "ok"⟩].length =
      [(⟨"f1", "c1", 1⟩ : SourceR), ⟨"f2", "c2", 1⟩].length) ∧
    roamSnippet ((fun _ => Except.ok "\x7b\"conclusion\":\"ok\"\x7d") 0)
        ([(⟨"f1", "c1", 1⟩ : SourceR), ⟨"f2", "c2", 1⟩].get ⟨0, by decide⟩) =
      .ok (([(⟨"f1", "c1", Json.str "ok"⟩ : RoamingItemV), ⟨"f2", "c2", Json.str "ok"⟩]).get ⟨0, by decide⟩) := by
  have h := (handleStartRoaming_all_or_nothing
    [(⟨"f1", "c1", 1⟩ : SourceR), ⟨"f2", "c2", 1⟩]
    (fun _ => Except.ok "\x7b\"conclusion\":\"ok\"\x7d")).2
    [⟨"f1", "c1", Json.str "ok"⟩, ⟨"f2", "c2", Json.str "ok"⟩] rfl
  exact ⟨h.1, h.2 0 (by decide) (by decide)⟩

/-! ## `callGenerativeAiStream`, backend branch (source lines 438-458)

```ts
const reader = response.body.getReader();
const decoder = new TextDecoder();
while (true) {
    const { done, value } = await reader.read();
    if (done) break;
    onChunk(decoder.decode(value, { stream: true }));
}
onComplete();
```

Every decoded read is handed to `onChunk` as-is; there is no line framing, no
`data: ` prefix handling and no `[DONE]` sentinel in this branch. -/

/-- The read loop: each chunk is forwarded in order. -/
def backendStreamLoop : List String → List String
  | [] => []
  | v :: rest => v :: backendStreamLoop rest

/-- The result of the backend streaming branch on a 2xx response: the
`onChunk` payloads in delivery order, and the number of `onComplete` calls. -/
structure BackendStreamRun where
  delivered : List String
  completions : Nat
deriving DecidableEq

/-- The backend branch of `callGenerativeAiStream` (success path). -/
def callGenerativeAiStreamBackend (chunks : List String) : BackendStreamRun :=
  ⟨backendStreamLoop chunks, 1⟩

/-- C7, counterexample: fed a line-oriented event stream — an event line with
the fixed `data: ` prefix carrying a JSON payload whose nested text delta is
`"hi"`, followed by a `data: [DONE]` sentinel line — the backend streaming
path forwards the raw framed text verbatim to `onChunk` instead of
extracting the delta, and does not terminate at the sentinel (both lines are
delivered). -/
theorem callGenerativeAiStreamBackend_no_event_parsing_cex :
    (callGenerativeAiStreamBackend
        ["data: \x7b\"choices\":[\x7b\"delta\":\x7b\"content\":\"hi\"\x7d\x7d]\x7d\n", "data: [DONE]\n"]).delivered =
      ["data: \x7b\"choices\":[\x7b\"delta\":\x7b\"content\":\"hi\"\x7d\x7d]\x7d\n", "data: [DONE]\n"] ∧
    ["data: \x7b\"choices\":[\x7b\"delta\":\x7b\"content\":\"hi\"\x7d\x7d]\x7d\n", "data: [DONE]\n"] ≠ ["hi"] := by
  exact ⟨rfl, by decide⟩

/-- C7, amended: the backend streaming path forwards *every* increment
verbatim to `onChunk`, in arrival order, for any wire shape, and calls
`onComplete` exactly once at stream end; line-oriented event-stream parsing
(`data: ` prefix, JSON payload with a nested text delta, `[DONE]` sentinel)
is performed only by the frontend OpenAI-compatible streaming consumer
(`callOpenAiCompatibleApiStream`, claim C6), not by this branch. -/
theorem callGenerativeAiStreamBackend_verbatim (chunks : List String) :
    callGenerativeAiStreamBackend chunks = ⟨chunks, 1⟩ := by
  unfold callGenerativeAiStreamBackend
  congr 1
  induction chunks with
  | nil => rfl
  | cons c t ih => rw [backendStreamLoop, ih]

/-! ## `callOpenAiCompatibleApiStream` (source lines 249-280)

```ts
const reader = response.body.getReader();
const decoder = new TextDecoder();
let buffer = '';
while (true) {
    const { done, value } = await reader.read();
    if (done) break;
    buffer += decoder.decode(value, { stream: true });
    const lines = buffer.split('\n');
    buffer = lines.pop() || ''; // Keep the last, possibly incomplete line
    for (const line of lines) {
        if (line.trim().startsWith('data: ')) {
            const dataStr = line.substring(6).trim();
            if (dataStr === '[DONE]') { onComplete(); return; }
            try {
                const data = JSON.parse(dataStr);
                const content = data.choices?.[0]?.delta?.content;
                if (content) { onChunk(content); }
            } catch (e) { ... }
        }
    }
}
onComplete();
```

Reads are modelled as character lists (the `TextDecoder` in streaming mode
reassembles split multi-byte sequences, so the character level is the right
abstraction; the `\n` terminator is a single ASCII character). -/

/-- `String.prototype.split('\n')`: always nonempty; the last element is the
trailing (unterminated) segment. -/
def splitNl : List Char → List (List Char)
  | [] => [[]]
  | c :: cs =>
    if c = '\n' then [] :: splitNl cs
    else
      match splitNl cs with
      | [] => [[c]]
      | h :: t => (c :: h) :: t

/-- What processing one complete line does. -/
inductive LineAct where
  | noEvent
  | event (j : Json)
  | doneSig

/-- The `for (const line of lines)` body.  Note the source checks the prefix
on the *trimmed* line but slices `substring(6)` off the *untrimmed* line. -/
def lineAct (line : List Char) : LineAct :=
  if startsWithL "data: ".data (jsTrimL line) then
    let dataStr := jsTrimL (line.drop 6)
    if dataStr = "[DONE]".data then .doneSig
    else
      match jsonParseL dataStr with
      | none => .noEvent
      | some .null => .noEvent
      | some j =>
        let content :=
          jsChainGet (jsChainGet (jsChainIdx (jsGetOpt j "choices") 0) "delta") "content"
        if jsTruthyOpt content then .event (content.getD Json.null) else .noEvent
  else .noEvent

/-- Process a run of complete lines: deliver events in order, stopping (with
the done flag) at a `[DONE]` line. -/
def consumeLines : List (List Char) → List Json × Bool
  | [] => ([], false)
  | l :: ls =>
    match lineAct l with
    | .doneSig => ([], true)
    | .event j =>
      let r := consumeLines ls
      (j :: r.1, r.2)
    | .noEvent => consumeLines ls

/-- The consumer's observable state: the retained unterminated tail, the
`onChunk` payloads so far, and whether the `[DONE]` early return has fired
(after which nothing further is read or delivered). -/
structure StreamState where
  buffer : List Char
  events : List Json
  complete : Bool
deriving DecidableEq

/-- One `reader.read()` iteration: append the decoded chunk to the buffer,
split on `\n`, keep the unterminated tail, process the complete lines in
order, stopping at `[DONE]` (after which the function has returned — the
state is frozen and the buffer discarded). -/
def stepChunk (st : StreamState) (chunk : List Char) : StreamState :=
  if st.complete then st
  else
    ⟨if (consumeLines (splitNl (st.buffer ++ chunk)).dropLast).2 then []
      else (splitNl (st.buffer ++ chunk)).getLastD [],
     st.events ++ (consumeLines (splitNl (st.buffer ++ chunk)).dropLast).1,
     (consumeLines (splitNl (st.buffer ++ chunk)).dropLast).2⟩

/-- The whole read loop over a sequence of reads. -/
def runStream (chunks : List (List Char)) : StreamState :=
  chunks.foldl stepChunk ⟨[], [], false⟩

/-- The same consumer observed one character at a time: a `\n` completes and
processes the buffered line; any other character is appended to the buffer;
after `[DONE]` everything is ignored.  `stepChunk` is proved equal to folding
this over the chunk's characters, which makes the independence from read
boundaries transparent. -/
def charStep (st : StreamState) (c : Char) : StreamState :=
  if st.complete then st
  else if c = '\n' then
    match lineAct st.buffer with
    | .doneSig => ⟨[], st.events, true⟩
    | .event j => ⟨[], st.events ++ [j], false⟩
    | .noEvent => ⟨[], st.events, false⟩
  else ⟨st.buffer ++ [c], st.events, false⟩

theorem splitNl_ne_nil (cs : List Char) : splitNl cs ≠ [] := by
  induction cs with
  | nil => simp [splitNl]
  | cons c t ih =>
    rw [splitNl]
    by_cases h : c = '\n'
    · simp [h]
    · simp only [if_neg h]
      cases hs : splitNl t with
      | nil => simp
      | cons a r => simp

theorem splitNl_of_no_nl {u : List Char} (h : ∀ x ∈ u, x ≠ '\n') :
    splitNl u = [u] := by
  induction u with
  | nil => rfl
  | cons c t ih =>
    have hc : c ≠ '\n' := h c (by simp)
    have ht : splitNl t = [t] := ih (fun x hx => h x (by simp [hx]))
    rw [splitNl, if_neg hc, ht]

theorem splitNl_no_nl_append {u : List Char} (y : List Char)
    (h : ∀ x ∈ u, x ≠ '\n') :
    splitNl (u ++ '\n' :: y) = u :: splitNl y := by
  induction u with
  | nil => rw [List.nil_append, splitNl, if_pos rfl]
  | cons c t ih =>
    have hc : c ≠ '\n' := h c (by simp)
    have ht := ih (fun x hx => h x (by simp [hx]))
    rw [List.cons_append, splitNl, if_neg hc, ht]

theorem foldl_charStep_complete {l : List Char} {st : StreamState}
    (h : st.complete = true) : List.foldl charStep st l = st := by
  induction l with
  | nil => rfl
  | cons c t ih =>
    rw [List.foldl_cons]
    have hc : charStep st c = st := by rw [charStep, if_pos h]
    rw [hc, ih]

/-- `stepChunk` at a state whose `[DONE]` flag is clear, with the split of
buffer-plus-chunk already in hand. -/
theorem stepChunk_expand {st : StreamState} (hc : st.complete = false)
    (chunk : List Char) :
    stepChunk st chunk =
      ⟨if (consumeLines (splitNl (st.buffer ++ chunk)).dropLast).2 then []
        else (splitNl (st.buffer ++ chunk)).getLastD [],
       st.events ++ (consumeLines (splitNl (st.buffer ++ chunk)).dropLast).1,
       (consumeLines (splitNl (st.buffer ++ chunk)).dropLast).2⟩ := by
  rw [stepChunk, if_neg (by rw [hc]; simp)]

/-- One read equals folding the characters one at a time. -/
theorem stepChunk_eq_foldl (chunk : List Char) :
    ∀ st : StreamState, (∀ x ∈ st.buffer, x ≠ '\n') →
      stepChunk st chunk = List.foldl charStep st chunk := by
  induction chunk with
  | nil =>
    intro st hok
    rw [List.foldl_nil]
    cases hcp : st.complete with
    | true => rw [stepChunk, if_pos hcp]
    | false =>
      rw [stepChunk_expand hcp, List.append_nil, splitNl_of_no_nl hok]
      rw [List.dropLast_single]
      show (⟨st.buffer, st.events ++ [], false⟩ : StreamState) = st
      rw [List.append_nil]
      cases st
      simp_all
  | cons c rest ih =>
    intro st hok
    rw [List.foldl_cons]
    cases hcp : st.complete with
    | true =>
      rw [stepChunk, if_pos hcp]
      have h1 : charStep st c = st := by rw [charStep, if_pos hcp]
      rw [h1, foldl_charStep_complete hcp]
    | false =>
      by_cases hc : c = '\n'
      · subst hc
        have hsplit := splitNl_no_nl_append rest hok
        have hcs : charStep st '\n' =
            match lineAct st.buffer with
            | .doneSig => ⟨[], st.events, true⟩
            | .event j => ⟨[], st.events ++ [j], false⟩
            | .noEvent => ⟨[], st.events, false⟩ := by
          rw [charStep, if_neg (by rw [hcp]; simp), if_pos rfl]
        cases hs : splitNl rest with
        | nil => exact absurd hs (splitNl_ne_nil rest)
        | cons p q =>
          cases hact : lineAct st.buffer with
          | doneSig =>
            rw [hcs, hact, foldl_charStep_complete rfl]
            rw [stepChunk_expand hcp, hsplit, hs]
            rw [List.dropLast_cons₂, consumeLines, hact]
            simp
          | event j =>
            rw [hcs, hact, ← ih ⟨[], st.events ++ [j], false⟩ (by simp)]
            rw [stepChunk_expand hcp, hsplit, hs, stepChunk_expand rfl]
            show (⟨_, _, _⟩ : StreamState) = (⟨_, _, _⟩ : StreamState)
            rw [List.nil_append, hs]
            rw [List.dropLast_cons₂, consumeLines, hact]
            cases q with
            | nil =>
              rw [List.dropLast_single]
              show (⟨_, st.events ++ (j :: (consumeLines []).1), _⟩ : StreamState) = _
              rw [consumeLines]
              simp [List.getLastD_cons]
            | cons p2 q2 =>
              rw [List.dropLast_cons₂]
              show (⟨_, st.events ++ (j :: (consumeLines (p :: (p2 :: q2).dropLast)).1), _⟩ : StreamState) = _
              simp [List.getLastD_cons]
          | noEvent =>
            rw [hcs, hact, ← ih ⟨[], st.events, false⟩ (by simp)]
            rw [stepChunk_expand hcp, hsplit, hs, stepChunk_expand rfl]
            show (⟨_, _, _⟩ : StreamState) = (⟨_, _, _⟩ : StreamState)
            rw [List.nil_append, hs]
            rw [List.dropLast_cons₂, consumeLines, hact]
            cases q with
            | nil =>
              rw [List.dropLast_single]
              simp [List.getLastD_cons]
            | cons p2 q2 =>
              rw [List.dropLast_cons₂]
              simp [List.getLastD_cons]
      · have hcs : charStep st c = ⟨st.buffer ++ [c], st.events, false⟩ := by
          rw [charStep, if_neg (by rw [hcp]; simp), if_neg hc]
        rw [hcs, ← ih ⟨st.buffer ++ [c], st.events, false⟩ ?hb]
        case hb =>
          intro x hx
          rcases List.mem_append.mp hx with h1 | h1
          · exact hok x h1
          · simp at h1; rw [h1]; exact hc
        rw [stepChunk_expand hcp, stepChunk_expand rfl]
        show (⟨_, _, _⟩ : StreamState) = (⟨_, _, _⟩ : StreamState)
        rw [← List.append_cons]

theorem charStep_no_nl {st : StreamState} {c : Char}
    (hok : ∀ x ∈ st.buffer, x ≠ '\n') :
    ∀ x ∈ (charStep st c).buffer, x ≠ '\n' := by
  rw [charStep]
  by_cases h : st.complete = true
  · rw [if_pos h]; exact hok
  · rw [if_neg h]
    by_cases hc : c = '\n'
    · rw [if_pos hc]
      cases hact : lineAct st.buffer <;> simp
    · rw [if_neg hc]
      intro x hx
      rcases List.mem_append.mp hx with h1 | h1
      · exact hok x h1
      · simp at h1
        rw [h1]
        exact hc

theorem foldl_charStep_no_nl {l : List Char} {st : StreamState}
    (hok : ∀ x ∈ st.buffer, x ≠ '\n') :
    ∀ x ∈ (List.foldl charStep st l).buffer, x ≠ '\n' := by
  induction l generalizing st with
  | nil => exact hok
  | cons c t ih => exact ih (charStep_no_nl hok)

theorem foldl_stepChunk_eq_flatten (chunks : List (List Char)) :
    ∀ st : StreamState, (∀ x ∈ st.buffer, x ≠ '\n') →
      chunks.foldl stepChunk st = List.foldl charStep st chunks.flatten := by
  induction chunks with
  | nil => intro st _; rfl
  | cons c t ih =>
    intro st hok
    rw [List.foldl_cons, List.flatten_cons, List.foldl_append]
    have hstep := stepChunk_eq_foldl c st hok
    rw [hstep, ih (List.foldl charStep st c) (foldl_charStep_no_nl hok)]

/-- C6: the event-line consumer is insensitive to how the byte sequence is
cut into reads.  (1) Processing any sequence of reads is identical —
delivered events, retained buffer, and `[DONE]` termination alike — to
processing their concatenation in one read: a line is parsed and delivered
only once its terminator has been observed, and each read's trailing partial
line is retained and prepended to the next read.  (2) In particular a split
placing the `\n` terminator exactly on the read boundary delivers the same
events as the unsplit sequence — exactly one event for that line, never zero
or two.  (3) A read with no terminator at all delivers nothing and is
retained whole in the buffer. -/
theorem callOpenAiCompatibleApiStream_framing :
    (∀ chunks : List (List Char), runStream chunks = runStream [chunks.flatten]) ∧
    (∀ u v : List Char, runStream [u ++ ['\n'], v] = runStream [u ++ '\n' :: v]) ∧
    (∀ u : List Char, (∀ x ∈ u, x ≠ '\n') → runStream [u] = ⟨u, [], false⟩) := by
  have hmain : ∀ chunks : List (List Char), runStream chunks = runStream [chunks.flatten] := by
    intro chunks
    rw [runStream, runStream, foldl_stepChunk_eq_flatten chunks _ (by simp),
      foldl_stepChunk_eq_flatten [chunks.flatten] _ (by simp)]
    rw [List.flatten_cons, List.flatten_nil, List.append_nil]
  refine ⟨hmain, ?_, ?_⟩
  · intro u v
    have h1 := hmain [u ++ ['\n'], v]
    have h2 := hmain [u ++ '\n' :: v]
    rw [h1, h2]
    have : ([u ++ ['\n'], v] : List (List Char)).flatten = [u ++ '\n' :: v].flatten := by
      simp
    rw [this]
  · intro u hok
    show stepChunk ⟨[], [], false⟩ u = _
    rw [stepChunk_expand rfl]
    show (⟨_, List.nil ++ _, _⟩ : StreamState) = _
    rw [List.nil_append, splitNl_of_no_nl hok, List.dropLast_single]
    rw [consumeLines]
    simp [List.getLastD_cons]

/-- Witness for C6's third part: a read holding an unterminated `data:` line
(even the sentinel) delivers nothing and is buffered whole. -/
theorem callOpenAiCompatibleApiStream_framing_witness :
    runStream ["data: [DONE]".data] = ⟨"data: [DONE]".data, [], false⟩ :=
  callOpenAiCompatibleApiStream_framing.2.2 "data: [DONE]".data (by decide)

/-! ## Round trip: `jsonParse (stringify v) = some v`

This underpins claim C5.  The round trip holds for well-formed values (no
object carries a duplicate key — every value `JSON.parse` itself can produce
is of this shape, since JavaScript objects cannot hold duplicate keys). -/

mutual
/-- No object anywhere in the value has a duplicate key. -/
def Json.wfB : Json → Bool
  | .null => true
  | .bool _ => true
  | .num _ => true
  | .str _ => true
  | .arr xs => xs.wfB
  | .obj fs => fs.wfB
def JsonList.wfB : JsonList → Bool
  | .nil => true
  | .cons v tl => v.wfB && tl.wfB
def JsonFields.wfB : JsonFields → Bool
  | .nil => true
  | .cons k v tl => !tl.hasKey k && v.wfB && tl.wfB
end

mutual
/-- Recursion budget sufficient for `parseVal` on the printed value. -/
def needVal : Json → Nat
  | .null => 1
  | .bool _ => 1
  | .num _ => 1
  | .str _ => 1
  | .arr .nil => 1
  | .arr (.cons v tl) => 1 + needElems (JsonList.cons v tl)
  | .obj .nil => 1
  | .obj (.cons k v tl) => 1 + needFields (JsonFields.cons k v tl)
def needElems : JsonList → Nat
  | .nil => 0
  | .cons v tl => 1 + max (needVal v) (needElems tl)
def needFields : JsonFields → Nat
  | .nil => 0
  | .cons _ v tl => 1 + max (needVal v) (needFields tl)
end

/-- Reconstructing a character from its scalar value. -/
theorem char_ofNat_toNat (c : Char) : Char.ofNat c.toNat = c := by
  have hv : Nat.isValidChar c.toNat := c.valid
  have h2 : Char.ofNat c.toNat = Char.ofNatAux c.toNat hv := dif_pos hv
  rw [h2]
  apply Char.ext
  show UInt32.mk (BitVec.ofNatLt c.toNat _) = c.val
  apply UInt32.ext
  simp [UInt32.toBitVec, Char.toNat, UInt32.toNat]

/-- Characters with equal scalar values are equal. -/
theorem char_toNat_inj {a b : Char} (h : a.toNat = b.toNat) : a = b := by
  rw [← char_ofNat_toNat a, ← char_ofNat_toNat b, h]

/-- A character is never a UTF-16 surrogate value. -/
theorem char_not_surrogate (c : Char) : c.toNat < 0xd800 ∨ 0xe000 ≤ c.toNat := by
  rcases c.valid with h | ⟨h1, _⟩
  · exact Or.inl h
  · exact Or.inr h1

theorem digitChar_toNat {d : Nat} (h : d < 10) : (digitChar d).toNat = 48 + d := by
  interval_cases d <;> decide

theorem skipJsonWs_cons {c : Char} (h : isJsonWs c = false) (l : List Char) :
    skipJsonWs (c :: l) = c :: l := by
  rw [skipJsonWs, List.dropWhile_cons_of_neg (by simp [h])]

theorem hexVal_hexDigChar {k : Nat} (h : k < 16) : hexVal? (hexDigChar k) = some k := by
  interval_cases k <;> decide

theorem parseUnitsGo_print (s : List Char) : ∀ (fuel : Nat) (rest : List Char),
    s.length + 1 ≤ fuel →
    parseUnitsGo fuel (printStrBody s ++ '"' :: rest) = some (s.map Char.toNat, rest) := by
  induction s with
  | nil =>
    intro fuel rest hf
    match fuel, hf with
    | f + 1, _ =>
      show parseUnitsGo (f + 1) ('"' :: rest) = some ([], rest)
      rfl
  | cons c t ih =>
    intro fuel rest hf
    match fuel, hf with
    | f + 1, hf =>
      have hft : t.length + 1 ≤ f := by
        simp only [List.length_cons] at hf
        omega
      have iht := ih f rest hft
      rw [printStrBody, List.append_assoc]
      by_cases h1 : c = '"'
      · subst h1
        have hstep : parseUnitsGo (f + 1) ('\\' :: '"' :: (printStrBody t ++ '"' :: rest)) =
            (parseUnitsGo f (printStrBody t ++ '"' :: rest)).map
              (fun p => ('"'.toNat :: p.1, p.2)) := rfl
        show parseUnitsGo (f + 1) ('\\' :: '"' :: (printStrBody t ++ '"' :: rest)) = _
        rw [hstep, iht]
        rfl
      · by_cases h2 : c = '\\'
        · subst h2
          have hstep : parseUnitsGo (f + 1) ('\\' :: '\\' :: (printStrBody t ++ '"' :: rest)) =
              (parseUnitsGo f (printStrBody t ++ '"' :: rest)).map
                (fun p => ('\\'.toNat :: p.1, p.2)) := rfl
          show parseUnitsGo (f + 1) ('\\' :: '\\' :: (printStrBody t ++ '"' :: rest)) = _
          rw [hstep, iht]
          rfl
        · by_cases h3 : c.toNat = 0x08
          · have hc : escChar c = ['\\', 'b'] := by
              rw [escChar, if_neg h1, if_neg h2, if_pos h3]
            rw [hc]
            have hstep : parseUnitsGo (f + 1) ('\\' :: 'b' :: (printStrBody t ++ '"' :: rest)) =
                (parseUnitsGo f (printStrBody t ++ '"' :: rest)).map
                  (fun p => ((Char.ofNat 0x08).toNat :: p.1, p.2)) := rfl
            show parseUnitsGo (f + 1) ('\\' :: 'b' :: (printStrBody t ++ '"' :: rest)) = _
            rw [hstep, iht]
            have hv : (Char.ofNat 0x08).toNat = c.toNat := by rw [h3]; decide
            simp only [Option.map_some']
            rw [hv]
            rfl
          · by_cases h4 : c = '\t'
            · subst h4
              have hstep : parseUnitsGo (f + 1) ('\\' :: 't' :: (printStrBody t ++ '"' :: rest)) =
                  (parseUnitsGo f (printStrBody t ++ '"' :: rest)).map
                    (fun p => ('\t'.toNat :: p.1, p.2)) := rfl
              show parseUnitsGo (f + 1) ('\\' :: 't' :: (printStrBody t ++ '"' :: rest)) = _
              rw [hstep, iht]
              rfl
            · by_cases h5 : c = '\n'
              · subst h5
                have hstep : parseUnitsGo (f + 1) ('\\' :: 'n' :: (printStrBody t ++ '"' :: rest)) =
                    (parseUnitsGo f (printStrBody t ++ '"' :: rest)).map
                      (fun p => ('\n'.toNat :: p.1, p.2)) := rfl
                show parseUnitsGo (f + 1) ('\\' :: 'n' :: (printStrBody t ++ '"' :: rest)) = _
                rw [hstep, iht]
                rfl
              · by_cases h6 : c.toNat = 0x0c
                · have hc : escChar c = ['\\', 'f'] := by
                    rw [escChar, if_neg h1, if_neg h2, if_neg h3, if_neg h4, if_neg h5, if_pos h6]
                  rw [hc]
                  have hstep : parseUnitsGo (f + 1) ('\\' :: 'f' :: (printStrBody t ++ '"' :: rest)) =
                      (parseUnitsGo f (printStrBody t ++ '"' :: rest)).map
                        (fun p => ((Char.ofNat 0x0c).toNat :: p.1, p.2)) := rfl
                  show parseUnitsGo (f + 1) ('\\' :: 'f' :: (printStrBody t ++ '"' :: rest)) = _
                  rw [hstep, iht]
                  have hv : (Char.ofNat 0x0c).toNat = c.toNat := by rw [h6]; decide
                  simp only [Option.map_some']
                  rw [hv]
                  rfl
                · by_cases h7 : c = '\r'
                  · subst h7
                    have hstep : parseUnitsGo (f + 1) ('\\' :: 'r' :: (printStrBody t ++ '"' :: rest)) =
                        (parseUnitsGo f (printStrBody t ++ '"' :: rest)).map
                          (fun p => ('\r'.toNat :: p.1, p.2)) := rfl
                    show parseUnitsGo (f + 1) ('\\' :: 'r' :: (printStrBody t ++ '"' :: rest)) = _
                    rw [hstep, iht]
                    rfl
                  · by_cases h8 : c.toNat < 0x20
                    · have hc : escChar c = ['\\', 'u', '0', '0',
                          hexDigChar (c.toNat / 16), hexDigChar (c.toNat % 16)] := by
                        rw [escChar, if_neg h1, if_neg h2, if_neg h3, if_neg h4, if_neg h5,
                          if_neg h6, if_neg h7, if_pos h8]
                      rw [hc]
                      have hstep : parseUnitsGo (f + 1) ('\\' :: 'u' :: '0' :: '0' ::
                          hexDigChar (c.toNat / 16) :: hexDigChar (c.toNat % 16) ::
                          (printStrBody t ++ '"' :: rest)) =
                          match hex4? '0' '0' (hexDigChar (c.toNat / 16)) (hexDigChar (c.toNat % 16)) with
                          | none => none
                          | some n => (parseUnitsGo f (printStrBody t ++ '"' :: rest)).map
                              (fun p => (n :: p.1, p.2)) := rfl
                      show parseUnitsGo (f + 1) ('\\' :: 'u' :: '0' :: '0' ::
                          hexDigChar (c.toNat / 16) :: hexDigChar (c.toNat % 16) ::
                          (printStrBody t ++ '"' :: rest)) = _
                      have hhex : hex4? '0' '0' (hexDigChar (c.toNat / 16))
                          (hexDigChar (c.toNat % 16)) = some c.toNat := by
                        rw [hex4?, show hexVal? '0' = some 0 from rfl,
                          hexVal_hexDigChar (by omega : c.toNat / 16 < 16),
                          hexVal_hexDigChar (by omega : c.toNat % 16 < 16)]
                        show some (((0 * 16 + 0) * 16 + c.toNat / 16) * 16 + c.toNat % 16) =
                          some c.toNat
                        congr 1
                        omega
                      rw [hstep, hhex, iht]
                      rfl
                    · have hc : escChar c = [c] := by
                        rw [escChar, if_neg h1, if_neg h2, if_neg h3, if_neg h4, if_neg h5,
                          if_neg h6, if_neg h7, if_neg h8]
                      rw [hc]
                      have hstep : parseUnitsGo (f + 1) (c :: (printStrBody t ++ '"' :: rest)) =
                          if c = '"' then some ([], printStrBody t ++ '"' :: rest)
                          else if c = '\\' then
                            match printStrBody t ++ '"' :: rest with
                            | [] => none
                            | e :: rest2 =>
                              if e = 'u' then
                                match rest2 with
                                | a :: b :: c3 :: d :: rest3 =>
                                  match hex4? a b c3 d with
                                  | none => none
                                  | some n => (parseUnitsGo f rest3).map (fun p => (n :: p.1, p.2))
                                | _ => none
                              else
                                match escMap? e with
                                | some ec => (parseUnitsGo f rest2).map
                                    (fun p => (ec.toNat :: p.1, p.2))
                                | none => none
                          else if c.toNat < 0x20 then none
                          else (parseUnitsGo f (printStrBody t ++ '"' :: rest)).map
                            (fun p => (c.toNat :: p.1, p.2)) := rfl
                      show parseUnitsGo (f + 1) (c :: (printStrBody t ++ '"' :: rest)) = _
                      rw [hstep, if_neg h1, if_neg h2, if_neg h8, iht]
                      rfl

theorem escChar_length_pos (c : Char) : 1 ≤ (escChar c).length := by
  rw [escChar]
  split_ifs <;> simp

theorem printStrBody_length (s : List Char) : s.length ≤ (printStrBody s).length := by
  induction s with
  | nil => simp [printStrBody]
  | cons c t ih =>
    rw [printStrBody, List.length_append, List.length_cons]
    have := escChar_length_pos c
    omega

theorem unitsToCharsGo_map (s : List Char) : ∀ fuel, s.length ≤ fuel →
    unitsToCharsGo fuel (s.map Char.toNat) = s := by
  induction s with
  | nil =>
    intro fuel _
    cases fuel <;> rfl
  | cons c t ih =>
    intro fuel hf
    match fuel, hf with
    | f + 1, hf =>
      have hns := char_not_surrogate c
      have h1 : ¬(0xd800 ≤ c.toNat ∧ c.toNat ≤ 0xdbff) := by omega
      have h2 : ¬(0xdc00 ≤ c.toNat ∧ c.toNat ≤ 0xdfff) := by omega
      have hstep : unitsToCharsGo (f + 1) (c.toNat :: t.map Char.toNat) =
          if 0xd800 ≤ c.toNat ∧ c.toNat ≤ 0xdbff then
            match t.map Char.toNat with
            | u2 :: rest2 =>
              if 0xdc00 ≤ u2 ∧ u2 ≤ 0xdfff then
                Char.ofNat (0x10000 + (c.toNat - 0xd800) * 0x400 + (u2 - 0xdc00)) ::
                  unitsToCharsGo f rest2
              else Char.ofNat 0xfffd :: unitsToCharsGo f (u2 :: rest2)
            | [] => [Char.ofNat 0xfffd]
          else if 0xdc00 ≤ c.toNat ∧ c.toNat ≤ 0xdfff then
            Char.ofNat 0xfffd :: unitsToCharsGo f (t.map Char.toNat)
          else Char.ofNat c.toNat :: unitsToCharsGo f (t.map Char.toNat) := rfl
      show unitsToCharsGo (f + 1) (c.toNat :: t.map Char.toNat) = c :: t
      rw [hstep, if_neg h1, if_neg h2]
      rw [char_ofNat_toNat, ih f (by simpa using hf)]

theorem parseStrL_print (s : List Char) (rest : List Char) :
    parseStrL (printStrBody s ++ '"' :: rest) = some (s, rest) := by
  rw [parseStrL, parseUnits]
  have hlen : s.length + 1 ≤ (printStrBody s ++ '"' :: rest).length + 1 := by
    rw [List.length_append, List.length_cons]
    have := printStrBody_length s
    omega
  rw [parseUnitsGo_print s _ rest hlen]
  rw [Option.map_some']
  show some (unitsToChars (s.map Char.toNat), rest) = some (s, rest)
  rw [unitsToChars, unitsToCharsGo_map s _ (by simp)]

theorem natChars_ne_nil (n : Nat) : natChars n ≠ [] := by
  rw [natChars]
  by_cases h : n = 0
  · simp [h]
  · rw [if_neg h]
    have hd : Nat.digits 10 n ≠ [] := Nat.digits_ne_nil_iff_ne_zero.mpr h
    simp [hd]

theorem char_le_iff {a b : Char} : a ≤ b ↔ a.toNat ≤ b.toNat :=
  ⟨fun h => h, fun h => h⟩

theorem isDigitCh_iff {c : Char} : isDigitCh c = true ↔ 48 ≤ c.toNat ∧ c.toNat ≤ 57 := by
  rw [isDigitCh]
  simp only [Bool.decide_and, Bool.and_eq_true, decide_eq_true_eq]
  rw [char_le_iff, char_le_iff]
  have h0 : '0'.toNat = 48 := by decide
  have h9 : '9'.toNat = 57 := by decide
  rw [h0, h9]

theorem natChars_digits {n : Nat} : ∀ c ∈ natChars n, isDigitCh c = true := by
  intro c hc
  rw [natChars] at hc
  by_cases h : n = 0
  · rw [if_pos h] at hc
    simp at hc
    rw [hc]
    decide
  · rw [if_neg h] at hc
    simp at hc
    obtain ⟨d, hd, hdc⟩ := hc
    have hlt : d < 10 := Nat.digits_lt_base (by norm_num) hd
    have htn := digitChar_toNat hlt
    rw [← hdc, isDigitCh_iff, htn]
    omega

theorem digitsToNat_fold (l : List Nat) : ∀ acc : Nat, (∀ d ∈ l, d < 10) →
    List.foldl (fun a c => 10 * a + (c.toNat - 48)) acc (l.reverse.map digitChar) =
      acc * 10 ^ l.length + Nat.ofDigits 10 l := by
  induction l with
  | nil =>
    intro acc _
    simp [Nat.ofDigits]
  | cons d t ih =>
    intro acc hall
    rw [List.reverse_cons, List.map_append, List.foldl_append]
    rw [ih acc (fun x hx => hall x (by simp [hx]))]
    have hd : d < 10 := hall d (by simp)
    show 10 * (acc * 10 ^ t.length + Nat.ofDigits 10 t) + ((digitChar d).toNat - 48) = _
    rw [digitChar_toNat hd, Nat.ofDigits_cons, List.length_cons]
    have h1 : 48 + d - 48 = d := by omega
    rw [h1]
    ring

theorem digitsToNat_natChars (n : Nat) : digitsToNat (natChars n) = n := by
  rw [natChars]
  by_cases h : n = 0
  · rw [if_pos h, h]
    decide
  · rw [if_neg h, digitsToNat]
    rw [digitsToNat_fold (Nat.digits 10 n) 0 (fun d hd => Nat.digits_lt_base (by norm_num) hd)]
    rw [Nat.ofDigits_digits]
    simp

theorem natChars_no_leading_zero {n : Nat} {d0 : Char} {dtl : List Char}
    (h : natChars n = d0 :: dtl) : ¬(d0 = '0' ∧ dtl ≠ []) := by
  rintro ⟨h0, hne⟩
  rw [natChars] at h
  by_cases hz : n = 0
  · rw [if_pos hz] at h
    have : dtl = [] := by
      have := congrArg List.tail h
      simpa using this.symm
    exact hne this
  · rw [if_neg hz] at h
    have hd : Nat.digits 10 n ≠ [] := Nat.digits_ne_nil_iff_ne_zero.mpr hz
    have hlast : (Nat.digits 10 n).getLast hd ≠ 0 := Nat.getLast_digit_ne_zero 10 hz
    have hrev : (Nat.digits 10 n).reverse = ((Nat.digits 10 n).getLast hd) ::
        ((Nat.digits 10 n).dropLast.reverse) := by
      conv_lhs => rw [← List.dropLast_append_getLast hd]
      rw [List.reverse_append]
      rfl
    rw [hrev] at h
    simp only [List.map_cons] at h
    have hd0 : digitChar ((Nat.digits 10 n).getLast hd) = d0 := (List.cons.injEq _ _ _ _ ▸ h).1
    have hlt : (Nat.digits 10 n).getLast hd < 10 :=
      Nat.digits_lt_base (by norm_num) (List.getLast_mem hd)
    have htn := digitChar_toNat hlt
    rw [h0] at hd0
    have : (digitChar ((Nat.digits 10 n).getLast hd)).toNat = '0'.toNat := by rw [hd0]
    rw [htn] at this
    have h48 : '0'.toNat = 48 := by decide
    rw [h48] at this
    omega

/-- The remainder begins with a structural delimiter (or is empty). -/
def delimHead : List Char → Prop
  | [] => True
  | c :: _ => c = ',' ∨ c = ']' ∨ c = '}'

theorem takeWhile_all_append {p : Char → Bool} {l r : List Char}
    (hl : ∀ c ∈ l, p c = true) (hr : ∀ c ∈ r.head?, p c = false) :
    (l ++ r).takeWhile p = l ∧ (l ++ r).dropWhile p = r := by
  induction l with
  | nil =>
    simp only [List.nil_append]
    cases r with
    | nil => exact ⟨rfl, rfl⟩
    | cons c t =>
      have hc : p c = false := hr c (by simp)
      rw [List.takeWhile_cons, List.dropWhile_cons]
      simp [hc]
  | cons c t ih =>
    have hc : p c = true := hl c (by simp)
    have := ih (fun x hx => hl x (by simp [hx])) 
    rw [List.cons_append, List.takeWhile_cons, List.dropWhile_cons]
    simp [hc, this.1, this.2]

theorem delimHead_not_digit {rest : List Char} (h : delimHead rest) :
    ∀ c ∈ rest.head?, isDigitCh c = false := by
  intro c hc
  cases rest with
  | nil => simp at hc
  | cons x t =>
    simp at hc
    rw [delimHead] at h
    subst hc
    rcases h with h | h | h <;> (subst h; decide)

theorem parseNatNum_print {n : Nat} {rest : List Char} (hrest : delimHead rest) :
    parseNatNum (natChars n ++ rest) = some (n, rest) := by
  obtain ⟨htake, hdrop⟩ := takeWhile_all_append natChars_digits (delimHead_not_digit hrest)
  rw [parseNatNum, htake, hdrop]
  cases h : natChars n with
  | nil => exact absurd h (natChars_ne_nil n)
  | cons d0 dtl =>
    show (if d0 = '0' ∧ dtl ≠ [] then none else _) = _
    rw [if_neg (natChars_no_leading_zero h)]
    cases rest with
    | nil =>
      rw [← h, digitsToNat_natChars]
    | cons c t =>
      rw [delimHead] at hrest
      have hne : ¬(c = '.' ∨ c = 'e' ∨ c = 'E') := by
        rcases hrest with hh | hh | hh <;> (rw [hh]; decide)
      show (if c = '.' ∨ c = 'e' ∨ c = 'E' then none else _) = _
      rw [if_neg hne, ← h, digitsToNat_natChars]

theorem parseNum_print (n : Int) (rest : List Char) (hrest : delimHead rest) :
    parseNum (intChars n ++ rest) = some (Json.num n, rest) := by
  rw [intChars]
  by_cases h : n < 0
  · rw [if_pos h, List.cons_append, parseNum]
    rw [if_pos rfl, parseNatNum_print hrest]
    rw [Option.map_some']
    have : (-(n.natAbs : Int)) = n := by omega
    rw [this]
  · rw [if_neg h]
    cases hna : natChars n.natAbs with
    | nil => exact absurd hna (natChars_ne_nil _)
    | cons d0 dtl =>
      rw [List.cons_append, parseNum]
      have hdig : isDigitCh d0 = true := natChars_digits d0 (by rw [hna]; simp)
      have hd0 : d0 ≠ '-' := by
        intro h0
        rw [h0] at hdig
        exact absurd hdig (by decide)
      rw [if_neg hd0, ← List.cons_append, ← hna, parseNatNum_print hrest]
      rw [Option.map_some']
      have : ((n.natAbs : Int)) = n := by omega
      rw [this]

theorem isJsWs_of_range {c : Char} (h1 : 33 ≤ c.toNat) (h2 : c.toNat ≤ 126) :
    isJsWs c = false := by
  rw [isJsWs]
  apply decide_eq_false
  rintro (h | h | h | h | h | h | h | h | ⟨ha, hb⟩ | h | h | h | h | h | h)
  · subst h; exact absurd h1 (by decide)
  · subst h; exact absurd h1 (by decide)
  · subst h; exact absurd h1 (by decide)
  · subst h; exact absurd h1 (by decide)
  all_goals omega

theorem isJsonWs_of_not_isJsWs {c : Char} (h : isJsWs c = false) :
    isJsonWs c = false := by
  rw [isJsonWs]
  apply decide_eq_false
  rintro (hc | hc | hc | hc) <;> (subst hc; exact absurd h (by decide))

/-- The first character of a printed value: nonempty, not whitespace, and not
a closing bracket or brace. -/
theorem printVal_head (v : Json) :
    ∃ c t, printVal v = c :: t ∧ isJsWs c = false ∧ c ≠ ']' ∧ c ≠ '}' := by
  cases v with
  | null => refine ⟨'n', _, rfl, ?_, ?_, ?_⟩ <;> decide
  | bool b =>
    cases b with
    | true => refine ⟨'t', _, rfl, ?_, ?_, ?_⟩ <;> decide
    | false => refine ⟨'f', _, rfl, ?_, ?_, ?_⟩ <;> decide
  | num n =>
    show ∃ c t, intChars n = c :: t ∧ _
    rw [intChars]
    by_cases h : n < 0
    · rw [if_pos h]
      exact ⟨'-', _, rfl, by decide, by decide, by decide⟩
    · rw [if_neg h]
      cases hna : natChars n.natAbs with
      | nil => exact absurd hna (natChars_ne_nil _)
      | cons d0 dtl =>
        have hdig : isDigitCh d0 = true := natChars_digits d0 (by rw [hna]; simp)
        have hb := isDigitCh_iff.mp hdig
        refine ⟨d0, dtl, rfl, isJsWs_of_range (by omega) (by omega), ?_, ?_⟩
        · intro h0
          have : d0.toNat = 93 := by rw [h0]; decide
          omega
        · intro h0
          have : d0.toNat = 125 := by rw [h0]; decide
          omega
  | str s => refine ⟨'"', _, rfl, ?_, ?_, ?_⟩ <;> decide
  | arr xs =>
    cases xs with
    | nil => refine ⟨'[', _, rfl, ?_, ?_, ?_⟩ <;> decide
    | cons v tl => refine ⟨'[', _, rfl, ?_, ?_, ?_⟩ <;> decide
  | obj fs =>
    cases fs with
    | nil => refine ⟨'{', _, rfl, ?_, ?_, ?_⟩ <;> decide
    | cons k v tl => refine ⟨'{', _, rfl, ?_, ?_, ?_⟩ <;> decide

theorem needVal_pos (v : Json) : 1 ≤ needVal v := by
  cases v with
  | null => exact le_refl 1
  | bool b => exact le_refl 1
  | num n => exact le_refl 1
  | str s => exact le_refl 1
  | arr xs => cases xs with
    | nil => exact le_refl 1
    | cons v tl => show 1 ≤ 1 + _; omega
  | obj fs => cases fs with
    | nil => exact le_refl 1
    | cons k v tl => show 1 ≤ 1 + _; omega

theorem needElems_pos {xs : JsonList} (h : xs ≠ .nil) : 1 ≤ needElems xs := by
  cases xs with
  | nil => exact absurd rfl h
  | cons v tl => show 1 ≤ 1 + _; omega

theorem needFields_pos {fs : JsonFields} (h : fs ≠ .nil) : 1 ≤ needFields fs := by
  cases fs with
  | nil => exact absurd rfl h
  | cons k v tl => show 1 ≤ 1 + _; omega

theorem prepend_eq_cons {k : String} {v : Json} {tl : JsonFields}
    (h : tl.hasKey k = false) : JsonFields.prepend k v tl = .cons k v tl := by
  rw [JsonFields.prepend]
  cases hg : tl.get? k with
  | none => rfl
  | some w =>
    rw [JsonFields.hasKey, hg] at h
    exact absurd h (by simp)

mutual
/-- The printed value funds the parser's budget. -/
theorem needVal_le : (v : Json) → needVal v ≤ (printVal v).length
  | .null => by decide
  | .bool b => by cases b <;> decide
  | .num n => by
    show 1 ≤ (intChars n).length
    rw [intChars]
    by_cases h : n < 0
    · rw [if_pos h]; simp
    · rw [if_neg h]
      cases hna : natChars n.natAbs with
      | nil => exact absurd hna (natChars_ne_nil _)
      | cons a b => simp
  | .str s => by
    show 1 ≤ ('"' :: (printStrBody s.data ++ ['"'])).length
    rw [List.length_cons]
    omega
  | .arr .nil => by decide
  | .arr (.cons v tl) => by
    have h := needElems_le (JsonList.cons v tl)
    show 1 + needElems (JsonList.cons v tl) ≤
      ('[' :: (printElems (JsonList.cons v tl) ++ [']'])).length
    rw [List.length_cons, List.length_append, List.length_cons, List.length_nil]
    omega
  | .obj .nil => by decide
  | .obj (.cons k v tl) => by
    have h := needFields_le (JsonFields.cons k v tl)
    show 1 + needFields (JsonFields.cons k v tl) ≤
      ('{' :: (printFields (JsonFields.cons k v tl) ++ ['}'])).length
    rw [List.length_cons, List.length_append, List.length_cons, List.length_nil]
    omega
theorem needElems_le : (xs : JsonList) → needElems xs ≤ (printElems xs).length + 1
  | .nil => by decide
  | .cons v .nil => by
    have h := needVal_le v
    show 1 + max (needVal v) 0 ≤ (printVal v).length + 1
    rw [Nat.max_zero]
    omega
  | .cons v (.cons w tl) => by
    have h1 := needVal_le v
    have h2 := needElems_le (JsonList.cons w tl)
    show 1 + max (needVal v) (needElems (JsonList.cons w tl)) ≤
      (printVal v ++ ',' :: printElems (JsonList.cons w tl)).length + 1
    rw [List.length_append, List.length_cons]
    have h3 : max (needVal v) (needElems (JsonList.cons w tl)) ≤
        (printVal v).length + (printElems (JsonList.cons w tl)).length + 1 := by
      rw [max_le_iff]
      omega
    omega
theorem needFields_le : (fs : JsonFields) → needFields fs ≤ (printFields fs).length + 1
  | .nil => by decide
  | .cons k v .nil => by
    have h := needVal_le v
    show 1 + max (needVal v) 0 ≤
      ('"' :: (printStrBody k.data ++ '"' :: ':' :: printVal v)).length + 1
    rw [Nat.max_zero, List.length_cons, List.length_append, List.length_cons,
      List.length_cons]
    omega
  | .cons k v (.cons k2 v2 tl) => by
    have h1 := needVal_le v
    have h2 := needFields_le (JsonFields.cons k2 v2 tl)
    show 1 + max (needVal v) (needFields (JsonFields.cons k2 v2 tl)) ≤
      (('"' :: (printStrBody k.data ++ '"' :: ':' :: printVal v)) ++
        ',' :: printFields (JsonFields.cons k2 v2 tl)).length + 1
    rw [List.length_append, List.length_cons, List.length_append, List.length_cons,
      List.length_cons, List.length_cons]
    have h3 : max (needVal v) (needFields (JsonFields.cons k2 v2 tl)) ≤
        (printVal v).length + (printFields (JsonFields.cons k2 v2 tl)).length + 1 := by
      rw [max_le_iff]
      omega
    omega
end

/-- One unfolding step of `parseVal` at positive budget. -/
theorem parseVal_succ (f : Nat) (cs0 : List Char) :
    parseVal (f + 1) cs0 =
      match skipJsonWs cs0 with
      | [] => none
      | c :: rest =>
        if c = '"' then (parseStrL rest).map (fun p => (Json.str (String.mk p.1), p.2))
        else if c = '[' then
          if (skipJsonWs rest).head? = some ']' then
            some (Json.arr .nil, (skipJsonWs rest).tail)
          else (parseElems f rest).map (fun p => (Json.arr p.1, p.2))
        else if c = '{' then
          if (skipJsonWs rest).head? = some '}' then
            some (Json.obj .nil, (skipJsonWs rest).tail)
          else (parseFields f rest).map (fun p => (Json.obj p.1, p.2))
        else if c = 'n' then
          match rest with
          | 'u' :: 'l' :: 'l' :: r => some (Json.null, r)
          | _ => none
        else if c = 't' then
          match rest with
          | 'r' :: 'u' :: 'e' :: r => some (Json.bool true, r)
          | _ => none
        else if c = 'f' then
          match rest with
          | 'a' :: 'l' :: 's' :: 'e' :: r => some (Json.bool false, r)
          | _ => none
        else if c = '-' ∨ isDigitCh c then parseNum (c :: rest)
        else none := rfl

/-- One unfolding step of `parseElems` at positive budget. -/
theorem parseElems_succ (f : Nat) (cs : List Char) :
    parseElems (f + 1) cs =
      match parseVal f cs with
      | none => none
      | some (v, rest) =>
        match skipJsonWs rest with
        | [] => none
        | d :: rest2 =>
          if d = ',' then (parseElems f rest2).map (fun p => (JsonList.cons v p.1, p.2))
          else if d = ']' then some (JsonList.cons v .nil, rest2)
          else none := rfl

/-- One unfolding step of `parseFields` at positive budget, specialised to an
input that starts with the opening quote of the first key. -/
theorem parseFields_succ (f : Nat) (Y : List Char) :
    parseFields (f + 1) ('"' :: Y) =
      match parseStrL Y with
      | none => none
      | some (k, rest2) =>
        match skipJsonWs rest2 with
        | [] => none
        | e :: rest3 =>
          if e = ':' then
            match parseVal f rest3 with
            | none => none
            | some (v, rest4) =>
              match skipJsonWs rest4 with
              | [] => none
              | g :: rest5 =>
                if g = ',' then
                  (parseFields f rest5).map (fun p =>
                    (JsonFields.prepend (String.mk k) v p.1, p.2))
                else if g = '}' then some (JsonFields.cons (String.mk k) v .nil, rest5)
                else none
          else none := rfl

/-- The first character of the printed form of a nonempty element list. -/
theorem printElems_head (w : Json) (tl : JsonList) :
    ∃ c Y, printElems (.cons w tl) = c :: Y ∧ isJsWs c = false ∧ c ≠ ']' := by
  obtain ⟨c, t, hpv, hws, hne, -⟩ := printVal_head w
  cases tl with
  | nil => exact ⟨c, t, hpv, hws, hne⟩
  | cons w2 tl2 =>
    refine ⟨c, t ++ ',' :: printElems (.cons w2 tl2), ?_, hws, hne⟩
    show printVal w ++ ',' :: printElems (JsonList.cons w2 tl2) = _
    rw [hpv, List.cons_append]

/-- The printed form of a nonempty field list starts with a quote. -/
theorem printFields_head (k : String) (w : Json) (tl : JsonFields) :
    ∃ Y, printFields (.cons k w tl) = '"' :: Y := by
  cases tl with
  | nil => exact ⟨_, rfl⟩
  | cons k2 w2 tl2 => exact ⟨_, rfl⟩

/-- The parser reads back exactly what the printer wrote — mutual statement
for values, array element lists and object field lists, by induction on the
parser's budget.  The remainder must start with a structural delimiter (or be
empty), which is every context in which the printed fragment occurs. -/
theorem parse_print_aux (fuel : Nat) :
    (∀ (v : Json) (rest : List Char), Json.wfB v = true → needVal v ≤ fuel →
      delimHead rest → parseVal fuel (printVal v ++ rest) = some (v, rest)) ∧
    (∀ (xs : JsonList) (rest : List Char), xs ≠ .nil → JsonList.wfB xs = true →
      needElems xs ≤ fuel →
      parseElems fuel (printElems xs ++ ']' :: rest) = some (xs, rest)) ∧
    (∀ (fs : JsonFields) (rest : List Char), fs ≠ .nil → JsonFields.wfB fs = true →
      needFields fs ≤ fuel →
      parseFields fuel (printFields fs ++ '}' :: rest) = some (fs, rest)) := by
  induction fuel with
  | zero =>
    refine ⟨?_, ?_, ?_⟩
    · intro v rest _ hfuel _
      exact absurd hfuel (by have := needVal_pos v; omega)
    · intro xs rest hne _ hfuel
      exact absurd hfuel (by have := needElems_pos hne; omega)
    · intro fs rest hne _ hfuel
      exact absurd hfuel (by have := needFields_pos hne; omega)
  | succ f ih =>
    obtain ⟨ihA, ihB, ihC⟩ := ih
    refine ⟨?_, ?_, ?_⟩
    · intro v rest hwf hfuel hrest
      cases v with
      | null => exact rfl
      | bool b =>
        cases b with
        | true => exact rfl
        | false => exact rfl
      | num n =>
        obtain ⟨c, t, hpv, hws, -, -⟩ := printVal_head (Json.num n)
        have hpv2 : intChars n = c :: t := hpv
        have hcd : c = '-' ∨ isDigitCh c = true := by
          have hpv3 : intChars n = c :: t := hpv2
          rw [intChars] at hpv3
          by_cases hneg : n < 0
          · rw [if_pos hneg] at hpv3
            injection hpv3 with h1 _
            exact Or.inl h1.symm
          · rw [if_neg hneg] at hpv3
            exact Or.inr (natChars_digits c (by rw [hpv3]; simp))
        have hcn : c.toNat = 45 ∨ (48 ≤ c.toNat ∧ c.toNat ≤ 57) := by
          rcases hcd with h | h
          · left; subst h; decide
          · right; exact isDigitCh_iff.mp h
        have hq : (c = '"') = False := eq_false (fun he => by subst he; revert hcn; decide)
        have hlb : (c = '[') = False := eq_false (fun he => by subst he; revert hcn; decide)
        have hob : (c = '{') = False := eq_false (fun he => by subst he; revert hcn; decide)
        have hn2 : (c = 'n') = False := eq_false (fun he => by subst he; revert hcn; decide)
        have ht2 : (c = 't') = False := eq_false (fun he => by subst he; revert hcn; decide)
        have hf2 : (c = 'f') = False := eq_false (fun he => by subst he; revert hcn; decide)
        have hd2 : (c = '-' ∨ isDigitCh c = true) = True := eq_true hcd
        have hjw : isJsonWs c = false :=
          isJsonWs_of_not_isJsWs (by
            rcases hcn with h | h
            · exact isJsWs_of_range (by omega) (by omega)
            · exact isJsWs_of_range (by omega) (by omega))
        show parseVal (f + 1) (intChars n ++ rest) = some (Json.num n, rest)
        rw [hpv2, List.cons_append, parseVal_succ, skipJsonWs_cons hjw]
        simp only [hq, hlb, hob, hn2, ht2, hf2, hd2, if_false, if_true]
        rw [← List.cons_append, ← hpv2]
        exact parseNum_print n rest hrest
      | str s =>
        show parseVal (f + 1) (('"' :: (printStrBody s.data ++ ['"'])) ++ rest) =
          some (Json.str s, rest)
        rw [List.cons_append, List.append_assoc, List.singleton_append]
        have hstep : parseVal (f + 1) ('"' :: (printStrBody s.data ++ '"' :: rest)) =
            (parseStrL (printStrBody s.data ++ '"' :: rest)).map
              (fun p => (Json.str (String.mk p.1), p.2)) := rfl
        rw [hstep, parseStrL_print s.data rest]
        rfl
      | arr xs =>
        cases xs with
        | nil => exact rfl
        | cons w tl =>
          have hfw : needElems (JsonList.cons w tl) ≤ f := by
            have h0 : 1 + needElems (JsonList.cons w tl) ≤ f + 1 := hfuel
            omega
          obtain ⟨c, Y, hpe, hws, hnec⟩ := printElems_head w tl
          have hjw : isJsonWs c = false := isJsonWs_of_not_isJsWs hws
          show parseVal (f + 1)
              (('[' :: (printElems (JsonList.cons w tl) ++ [']'])) ++ rest) =
            some (Json.arr (JsonList.cons w tl), rest)
          rw [List.cons_append, List.append_assoc, List.singleton_append]
          have hstep : parseVal (f + 1)
              ('[' :: (printElems (JsonList.cons w tl) ++ ']' :: rest)) =
              (if (skipJsonWs (printElems (JsonList.cons w tl) ++ ']' :: rest)).head? =
                  some ']' then
                some (Json.arr .nil,
                  (skipJsonWs (printElems (JsonList.cons w tl) ++ ']' :: rest)).tail)
              else (parseElems f (printElems (JsonList.cons w tl) ++ ']' :: rest)).map
                (fun p => (Json.arr p.1, p.2))) := rfl
          rw [hstep]
          have hskip : skipJsonWs (printElems (JsonList.cons w tl) ++ ']' :: rest) =
              c :: (Y ++ ']' :: rest) := by
            rw [hpe, List.cons_append]
            exact skipJsonWs_cons hjw _
          rw [hskip]
          rw [if_neg (by simp only [List.head?_cons, Option.some.injEq]; exact hnec)]
          rw [ihB (JsonList.cons w tl) rest (fun h => JsonList.noConfusion h) hwf hfw]
          rfl
      | obj fs =>
        cases fs with
        | nil => exact rfl
        | cons k w tl =>
          have hfw : needFields (JsonFields.cons k w tl) ≤ f := by
            have h0 : 1 + needFields (JsonFields.cons k w tl) ≤ f + 1 := hfuel
            omega
          obtain ⟨Y, hpf⟩ := printFields_head k w tl
          show parseVal (f + 1)
              (('{' :: (printFields (JsonFields.cons k w tl) ++ ['}'])) ++ rest) =
            some (Json.obj (JsonFields.cons k w tl), rest)
          rw [List.cons_append, List.append_assoc, List.singleton_append]
          have hstep : parseVal (f + 1)
              ('{' :: (printFields (JsonFields.cons k w tl) ++ '}' :: rest)) =
              (if (skipJsonWs (printFields (JsonFields.cons k w tl) ++ '}' :: rest)).head? =
                  some '}' then
                some (Json.obj .nil,
                  (skipJsonWs (printFields (JsonFields.cons k w tl) ++ '}' :: rest)).tail)
              else (parseFields f (printFields (JsonFields.cons k w tl) ++ '}' :: rest)).map
                (fun p => (Json.obj p.1, p.2))) := rfl
          rw [hstep]
          have hskip : skipJsonWs (printFields (JsonFields.cons k w tl) ++ '}' :: rest) =
              '"' :: (Y ++ '}' :: rest) := by
            rw [hpf, List.cons_append]
            exact skipJsonWs_cons (by decide) _
          rw [hskip]
          rw [if_neg (by simp only [List.head?_cons, Option.some.injEq]; decide)]
          rw [ihC (JsonFields.cons k w tl) rest (fun h => JsonFields.noConfusion h) hwf hfw]
          rfl
    · intro xs rest hne hwf hfuel
      cases xs with
      | nil => exact absurd rfl hne
      | cons w tl =>
        have hpair : Json.wfB w = true ∧ JsonList.wfB tl = true := by
          have h0 : (Json.wfB w && JsonList.wfB tl) = true := hwf
          simpa using h0
        have hmax : max (needVal w) (needElems tl) ≤ f := by
          have h0 : 1 + max (needVal w) (needElems tl) ≤ f + 1 := hfuel
          omega
        have hfw : needVal w ≤ f := le_trans (le_max_left _ _) hmax
        have hft : needElems tl ≤ f := le_trans (le_max_right _ _) hmax
        cases tl with
        | nil =>
          show parseElems (f + 1) (printVal w ++ ']' :: rest) =
            some (JsonList.cons w .nil, rest)
          rw [parseElems_succ, ihA w (']' :: rest) hpair.1 hfw (Or.inr (Or.inl rfl))]
          rfl
        | cons w2 tl2 =>
          show parseElems (f + 1)
              ((printVal w ++ ',' :: printElems (JsonList.cons w2 tl2)) ++ ']' :: rest) =
            some (JsonList.cons w (JsonList.cons w2 tl2), rest)
          rw [List.append_assoc, List.cons_append]
          rw [parseElems_succ,
            ihA w (',' :: (printElems (JsonList.cons w2 tl2) ++ ']' :: rest)) hpair.1 hfw
              (Or.inl rfl)]
          show (parseElems f (printElems (JsonList.cons w2 tl2) ++ ']' :: rest)).map
              (fun p => (JsonList.cons w p.1, p.2)) =
            some (JsonList.cons w (JsonList.cons w2 tl2), rest)
          rw [ihB (JsonList.cons w2 tl2) rest (fun h => JsonList.noConfusion h) hpair.2 hft]
          rfl
    · intro fs rest hne hwf hfuel
      cases fs with
      | nil => exact absurd rfl hne
      | cons k w tl =>
        have htrip : tl.hasKey k = false ∧ Json.wfB w = true ∧
            JsonFields.wfB tl = true := by
          have h0 : ((!tl.hasKey k && Json.wfB w) && JsonFields.wfB tl) = true := hwf
          simpa [and_assoc] using h0
        have hmax : max (needVal w) (needFields tl) ≤ f := by
          have h0 : 1 + max (needVal w) (needFields tl) ≤ f + 1 := hfuel
          omega
        have hfw : needVal w ≤ f := le_trans (le_max_left _ _) hmax
        have hft : needFields tl ≤ f := le_trans (le_max_right _ _) hmax
        cases tl with
        | nil =>
          show parseFields (f + 1)
              (('"' :: (printStrBody k.data ++ '"' :: ':' :: printVal w)) ++ '}' :: rest) =
            some (JsonFields.cons k w .nil, rest)
          rw [List.cons_append, List.append_assoc, List.cons_append, List.cons_append]
          rw [parseFields_succ, parseStrL_print k.data (':' :: (printVal w ++ '}' :: rest))]
          show (match parseVal f (printVal w ++ '}' :: rest) with
            | none => none
            | some (v2, rest4) =>
              match skipJsonWs rest4 with
              | [] => none
              | g :: rest5 =>
                if g = ',' then
                  (parseFields f rest5).map (fun p =>
                    (JsonFields.prepend (String.mk k.data) v2 p.1, p.2))
                else if g = '}' then
                  some (JsonFields.cons (String.mk k.data) v2 .nil, rest5)
                else none) = some (JsonFields.cons k w .nil, rest)
          rw [ihA w ('}' :: rest) htrip.2.1 hfw (Or.inr (Or.inr rfl))]
          rfl
        | cons k2 w2 tl2 =>
          show parseFields (f + 1)
              ((('"' :: (printStrBody k.data ++ '"' :: ':' :: printVal w)) ++
                ',' :: printFields (JsonFields.cons k2 w2 tl2)) ++ '}' :: rest) =
            some (JsonFields.cons k w (JsonFields.cons k2 w2 tl2), rest)
          simp only [List.cons_append, List.append_assoc]
          rw [parseFields_succ,
            parseStrL_print k.data
              (':' :: (printVal w ++ ',' :: (printFields (JsonFields.cons k2 w2 tl2) ++
                '}' :: rest)))]
          show (match parseVal f (printVal w ++ ',' ::
                (printFields (JsonFields.cons k2 w2 tl2) ++ '}' :: rest)) with
            | none => none
            | some (v2, rest4) =>
              match skipJsonWs rest4 with
              | [] => none
              | g :: rest5 =>
                if g = ',' then
                  (parseFields f rest5).map (fun p =>
                    (JsonFields.prepend (String.mk k.data) v2 p.1, p.2))
                else if g = '}' then
                  some (JsonFields.cons (String.mk k.data) v2 .nil, rest5)
                else none) = some (JsonFields.cons k w (JsonFields.cons k2 w2 tl2), rest)
          rw [ihA w (',' :: (printFields (JsonFields.cons k2 w2 tl2) ++ '}' :: rest))
            htrip.2.1 hfw (Or.inl rfl)]
          show (parseFields f (printFields (JsonFields.cons k2 w2 tl2) ++ '}' :: rest)).map
              (fun p => (JsonFields.prepend (String.mk k.data) w p.1, p.2)) =
            some (JsonFields.cons k w (JsonFields.cons k2 w2 tl2), rest)
          rw [ihC (JsonFields.cons k2 w2 tl2) rest (fun h => JsonFields.noConfusion h)
            htrip.2.2 hft]
          rw [Option.map_some']
          show some (JsonFields.prepend k w (JsonFields.cons k2 w2 tl2), rest) =
            some (JsonFields.cons k w (JsonFields.cons k2 w2 tl2), rest)
          rw [prepend_eq_cons htrip.1]

/-- The last element of `a :: (l ++ [b])`, as the head of the reversal. -/
theorem reverse_head_sandwich (a b : Char) (l : List Char) :
    ((a :: (l ++ [b])).reverse).head? = some b := by
  rw [List.reverse_cons, List.reverse_append]
  rfl

/-- Every character of a printed integer is a minus sign or a digit, hence
never JavaScript whitespace. -/
theorem intChars_not_ws {n : Int} {c : Char} (hc : c ∈ intChars n) :
    isJsWs c = false := by
  rw [intChars] at hc
  have hdig : ∀ d : Char, isDigitCh d = true → isJsWs d = false := by
    intro d hd
    have hb := isDigitCh_iff.mp hd
    exact isJsWs_of_range (by omega) (by omega)
  by_cases h : n < 0
  · rw [if_pos h] at hc
    rcases List.mem_cons.mp hc with h1 | h1
    · subst h1; decide
    · exact hdig c (natChars_digits c h1)
  · rw [if_neg h] at hc
    exact hdig c (natChars_digits c hc)

/-- A printed value carries no JavaScript whitespace at either end, so
`String.prototype.trim` leaves it unchanged. -/
theorem printVal_trim (v : Json) : jsTrimL (printVal v) = printVal v := by
  apply jsTrimL_eq_self_of
  · intro c hc
    obtain ⟨c0, t, hpv, hws, -, -⟩ := printVal_head v
    rw [hpv] at hc
    simp only [List.head?_cons, Option.mem_def, Option.some.injEq] at hc
    rw [hc] at hws
    exact hws
  · intro c hc
    cases v with
    | null =>
      rw [show printVal Json.null = ['n', 'u', 'l', 'l'] from rfl] at hc
      simp only [Option.mem_def] at hc
      have h2 : 'l' = c := by simpa using hc
      subst h2; decide
    | bool b =>
      cases b with
      | true =>
        rw [show printVal (Json.bool true) = ['t', 'r', 'u', 'e'] from rfl] at hc
        have h2 : 'e' = c := by simpa using hc
        subst h2; decide
      | false =>
        rw [show printVal (Json.bool false) = ['f', 'a', 'l', 's', 'e'] from rfl] at hc
        have h2 : 'e' = c := by simpa using hc
        subst h2; decide
    | num n =>
      have h1 : c ∈ (printVal (Json.num n)).reverse := List.mem_of_mem_head? hc
      have h2 : c ∈ intChars n := List.mem_reverse.mp h1
      exact intChars_not_ws h2
    | str s =>
      rw [show printVal (Json.str s) = '"' :: (printStrBody s.data ++ ['"']) from rfl,
        reverse_head_sandwich] at hc
      have h2 : '"' = c := by simpa using hc
      subst h2; decide
    | arr xs =>
      cases xs with
      | nil =>
        rw [show printVal (Json.arr .nil) = ['[', ']'] from rfl] at hc
        have h2 : ']' = c := by simpa using hc
        subst h2; decide
      | cons w tl =>
        rw [show printVal (Json.arr (JsonList.cons w tl)) =
            '[' :: (printElems (JsonList.cons w tl) ++ [']']) from rfl,
          reverse_head_sandwich] at hc
        have h2 : ']' = c := by simpa using hc
        subst h2; decide
    | obj fs =>
      cases fs with
      | nil =>
        rw [show printVal (Json.obj .nil) = ['{', '}'] from rfl] at hc
        have h2 : '}' = c := by simpa using hc
        subst h2; decide
      | cons k w tl =>
        rw [show printVal (Json.obj (JsonFields.cons k w tl)) =
            '{' :: (printFields (JsonFields.cons k w tl) ++ ['}']) from rfl,
          reverse_head_sandwich] at hc
        have h2 : '}' = c := by simpa using hc
        subst h2; decide

/-- `JSON.parse` inverts `JSON.stringify` on well-formed values: the fixed
budget of `jsonParseL` (two units per character) always covers the printed
value's need. -/
theorem jsonParseL_print (v : Json) (hwf : Json.wfB v = true) :
    jsonParseL (printVal v) = some v := by
  have hA := (parse_print_aux (2 * (printVal v).length + 2)).1
  have hneed : needVal v ≤ 2 * (printVal v).length + 2 := by
    have := needVal_le v
    omega
  have h := hA v [] hwf hneed trivial
  rw [List.append_nil] at h
  rw [jsonParseL, h]
  rfl

/-- C5, counterexample: the round trip fails on a recoverable value whose
serialization carries a comma directly before a closing bracket inside a
string literal.  `parseJsonResponse` recovers the two-character string `,]`
from the raw text `",,]"` — the trailing-comma strip turns that text into the
valid JSON `",]"` and `tryParse` parses the stripped variant first — but
parsing the canonical serialization of the recovered value, the text `",]"`,
strips the comma again and returns the different string `]`. -/
theorem parseJsonResponse_roundtrip_cex :
    parseJsonResponse "\",,]\"" = ⟨Json.str ",]", none, none⟩ ∧
    Json.stringify (Json.str ",]") = "\",]\"" ∧
    parseJsonResponse (Json.stringify (Json.str ",]")) = ⟨Json.str "]", none, none⟩ ∧
    parseJsonResponse (Json.stringify (Json.str ",]")) ≠ ⟨Json.str ",]", none, none⟩ := by
  decide

/-- C5 (corrected): `parseJsonResponse` inverts `JSON.stringify` on every
well-formed non-null value whose serialization the trailing-comma strip
leaves unchanged — the result is exactly that value with no error and no raw
response.  Well-formedness (no duplicate object keys) holds for every value
the parser itself can produce; non-nullity holds for every successfully
recovered value, since a null stage result is reported as a failure.  The
strip-invariance hypothesis cannot be dropped: `tryParse` applies the strip
*before* the first parse attempt, so a serialization containing a comma
directly before a closing bracket or brace — necessarily inside a string
literal — is corrupted first, as the counterexample shows. -/
theorem parseJsonResponse_roundtrip_amended (v : Json) (h1 : Json.wfB v = true)
    (h2 : v ≠ Json.null) (h3 : stripTC (printVal v) = printVal v) :
    parseJsonResponse (Json.stringify v) = ⟨v, none, none⟩ := by
  by_cases hfal : jsFalsy v = true
  · have hcases : v = Json.bool false ∨ v = Json.num 0 ∨ v = Json.str "" := by
      cases v with
      | null => exact absurd rfl h2
      | bool b =>
        cases b with
        | false => exact Or.inl rfl
        | true => exact absurd hfal (by decide)
      | num n =>
        have h0 : (!(decide (n ≠ 0))) = true := hfal
        simp only [Bool.not_eq_true', decide_eq_false_iff_not, not_not] at h0
        subst h0
        exact Or.inr (Or.inl rfl)
      | str s =>
        have h0 : (!(decide (s ≠ ""))) = true := hfal
        simp only [Bool.not_eq_true', decide_eq_false_iff_not, not_not] at h0
        subst h0
        exact Or.inr (Or.inr rfl)
      | arr xs =>
        rw [show jsFalsy (Json.arr xs) = false from rfl] at hfal
        exact Bool.noConfusion hfal
      | obj fs =>
        rw [show jsFalsy (Json.obj fs) = false from rfl] at hfal
        exact Bool.noConfusion hfal
    rcases hcases with h | h | h <;> (subst h; decide)
  · have hfalsy : jsFalsy v = false := by
      cases h : jsFalsy v with
      | false => rfl
      | true => exact absurd h hfal
    have hdata : (Json.stringify v).data = printVal v := rfl
    have hp1 : tryParseJS (jsTrimL (Json.stringify v).data) = v := by
      rw [hdata, printVal_trim]
      unfold tryParseJS
      rw [h3, jsonParseL_print v h1]
    have hstages : parseJsonStages (Json.stringify v) = v := by
      unfold parseJsonStages
      simp only [hp1, hfalsy]
      simp [hfalsy]
    unfold parseJsonResponse
    rw [hstages, if_neg h2]

/-- A concrete well-formed value for the round-trip witness: an object with
one field holding the array of the number zero and the string `x`. -/
def roundtripWitnessVal : Json :=
  Json.obj (JsonFields.cons "a"
    (Json.arr (JsonList.cons (Json.num 0) (JsonList.cons (Json.str "x") JsonList.nil)))
    JsonFields.nil)

/-- Witness for the amended C5 theorem: the hypotheses hold at the concrete
object above, and its serialization parses back to an equal value. -/
theorem parseJsonResponse_roundtrip_amended_witness :
    Json.wfB roundtripWitnessVal = true ∧ roundtripWitnessVal ≠ Json.null ∧
    stripTC (printVal roundtripWitnessVal) = printVal roundtripWitnessVal ∧
    parseJsonResponse (Json.stringify roundtripWitnessVal) =
      ⟨roundtripWitnessVal, none, none⟩ :=
  ⟨by decide, by decide, by decide,
    parseJsonResponse_roundtrip_amended roundtripWitnessVal (by decide) (by decide)
      (by decide)⟩
